import Mathlib

/-!
Verification of the dependency-ordering engine of `coffee/utils/calc_helpers.py`.

The Python functions are shallowly embedded:
* a Python `dict` mapping item names to reference lists becomes an
  association list `Graph` with unique keys (dict insertion is modelled by
  `dictInsert`, which updates in place or appends, as Python does);
* fallible code (`KeyError`, raised exceptions) returns `Except String _`;
* Python lists used as stacks are represented with their *last* element at
  the Lean list head, so that `list.pop()` is head-pattern-matching and
  `list.extend(cs)` is `cs.reverse ++ ·`;
* the `while q:` loop of `iterative_topological_sort` is written with a fuel
  counter that strictly bounds the number of iterations; the bound is proved
  sufficient below (`sortLoop_spec`), so the fuel never runs out on the
  inputs the library produces.
-/

namespace Coffee

abbrev Graph := List (String × List String)

/-- The keys of the dict, in insertion order. -/
def graphKeys (g : Graph) : List String := g.map Prod.fst

/-- Python `graph[v]`: `none` models a `KeyError`. -/
def childrenOf (g : Graph) (v : String) : Option (List String) := List.lookup v g

/-- Total children function (used only in specifications; `childrenOf` is what
the code evaluates). -/
def C (g : Graph) (v : String) : List String := (childrenOf g v).getD []

/-- `b` is referenced by `a`: the edge `a → b` of the dependency graph
(`a`'s reference list contains `b`). -/
def Edge (g : Graph) (a b : String) : Prop := b ∈ C g a

/-- Python source (`calc_helpers.py`):
`return {key: [value for value in graph[key] if value in graph] for key in graph}` -/
def prune_missing_from_graph (g : Graph) : Graph :=
  g.map (fun kv => (kv.1, kv.2.filter (fun v => v ∈ graphKeys g)))

/-- Python source: collect every value into `targets`, keep the keys not in
`targets`; raise `InvalidCalculationGraphException` when none remain. -/
def find_topological_graph_starts (g : Graph) : Except String (List String) :=
  let targets := (g.map Prod.snd).flatten
  let starts := (graphKeys g).filter (fun k => !(targets.contains k))
  if starts.length = 0 then
    .error "Graph does not have a start node - no item is set to calculation"
  else
    .ok starts

/-- Inner `while stack and v not in graph[stack[-1]]: order.append(stack.pop())`.
The head of `stack` is Python's `stack[-1]`; the head of `order` is the most
recently appended element. -/
def unwind (g : Graph) (v : String) :
    List String → List String → Except String (List String × List String)
  | [], order => .ok ([], order)
  | s :: rest, order =>
    match childrenOf g s with
    | none => .error "KeyError"
    | some cs =>
      if v ∈ cs then .ok (s :: rest, order) else unwind g v rest (s :: order)

/-- Outer `while q:` loop.  The head of `q` is the element Python's
`q.pop()` removes (the last element of the Python list); `q.extend(graph[v])`
therefore prepends `cs.reverse`. -/
def sortLoop (g : Graph) :
    Nat → List String → List String → List String → List String →
    Except String (List String × List String)
  | 0, _, _, _, _ => .error "fuel exhausted"
  | _ + 1, _, [], stack, order => .ok (stack, order)
  | fuel + 1, seen, v :: q, stack, order =>
    if v ∈ seen then
      sortLoop g fuel seen q stack order
    else
      match childrenOf g v with
      | none => .error "KeyError"
      | some cs =>
        match unwind g v stack order with
        | .error e => .error e
        | .ok (stack₁, order₁) =>
          sortLoop g fuel (v :: seen) (cs.reverse ++ q) (v :: stack₁) order₁

/-- An upper bound on the number of loop iterations: the initial worklist
length plus, for every graph entry, one visit plus its fan-out. -/
def sortFuel (g : Graph) (starts : List String) : Nat :=
  starts.length + (g.map (fun kv => kv.2.length + 1)).sum + 1

/-- Python source of `iterative_topological_sort`.  After the loop,
`result = stack + order[::-1]` which, in our representation, is
`stack.reverse ++ order`; the `reverse` flag reverses it once more. -/
def iterative_topological_sort (g : Graph) (starts : List String)
    (reverse : Bool) : Except String (List String) :=
  match sortLoop g (sortFuel g starts) [] starts.reverse [] [] with
  | .error e => .error e
  | .ok (stack, order) =>
    let result := stack.reverse ++ order
    .ok (if reverse then result.reverse else result)

/-- Every value list mentions only keys (the guarantee `prune_missing_from_graph`
establishes). -/
def IsPruned (g : Graph) : Prop := ∀ kv ∈ g, ∀ c ∈ kv.2, c ∈ graphKeys g

/-- No nonempty reference chain returns to its origin. -/
def Acyclic (g : Graph) : Prop :=
  ∀ x ∈ graphKeys g, ¬ Relation.TransGen (Edge g) x x

/-- The set of keys `find_topological_graph_starts` keeps: keys never
appearing in any value list. -/
def Unreferenced (g : Graph) (k : String) : Prop :=
  k ∈ graphKeys g ∧ ∀ kv ∈ g, k ∉ kv.2

end Coffee

namespace Coffee

theorem lookup_mem {g : Graph} {v : String} {cs : List String}
    (h : List.lookup v g = some cs) : (v, cs) ∈ g := by
  induction g with
  | nil => simp [List.lookup] at h
  | cons kv t ih =>
    obtain ⟨k, vs⟩ := kv
    by_cases hk : v = k
    · subst hk
      simp [List.lookup] at h
      simp [h]
    · simp [List.lookup, beq_false_of_ne hk] at h
      exact List.mem_cons_of_mem _ (ih h)

theorem mem_keys_lookup {g : Graph} {v : String}
    (h : v ∈ graphKeys g) : ∃ cs, childrenOf g v = some cs := by
  induction g with
  | nil => simp [graphKeys] at h
  | cons kv t ih =>
    obtain ⟨k, vs⟩ := kv
    by_cases hk : v = k
    · subst hk
      exact ⟨vs, by simp [childrenOf, List.lookup]⟩
    · simp only [childrenOf, List.lookup, beq_false_of_ne hk]
      apply ih
      simpa [graphKeys, hk] using h

theorem childrenOf_mem_keys {g : Graph} {v : String} {cs : List String}
    (h : childrenOf g v = some cs) : v ∈ graphKeys g := by
  exact List.mem_map.mpr ⟨(v, cs), lookup_mem h, rfl⟩

theorem C_eq {g : Graph} {v : String} {cs : List String}
    (h : childrenOf g v = some cs) : C g v = cs := by
  simp [C, h]

theorem edge_mem_keys {g : Graph} {a b : String} (h : Edge g a b) :
    a ∈ graphKeys g := by
  rcases hc : childrenOf g a with _ | cs
  · simp [Edge, C, hc] at h
  · exact childrenOf_mem_keys hc

theorem pruned_children {g : Graph} (hp : IsPruned g) {v : String}
    {cs : List String} (h : childrenOf g v = some cs) :
    ∀ c ∈ cs, c ∈ graphKeys g :=
  hp (v, cs) (lookup_mem h)

theorem acyclic_of_rank (g : Graph) (rank : String → Nat)
    (h : ∀ kv ∈ g, ∀ c ∈ kv.2, rank c < rank kv.1) : Acyclic g := by
  have hedge : ∀ a b, Edge g a b → rank b < rank a := by
    intro a b hab
    rcases hc : childrenOf g a with _ | cs
    · simp [Edge, C, hc] at hab
    · exact h (a, cs) (lookup_mem hc) b (by simpa [Edge, C_eq hc] using hab)
  intro x _ hx
  have : ∀ a b, Relation.TransGen (Edge g) a b → rank b < rank a := by
    intro a b hab
    induction hab with
    | single h1 => exact hedge _ _ h1
    | tail _ h2 ih => exact (hedge _ _ h2).trans ih
  exact absurd (this x x hx) (lt_irrefl _)

end Coffee

namespace Coffee

/-- Invariant: the open-path stack is a chain, each element a reference of
the element below it. -/
def StackChain (g : Graph) : List String → Prop
  | [] => True
  | [_] => True
  | a :: b :: t => a ∈ C g b ∧ StackChain g (b :: t)

/-- Invariant on `order`: every element's references occur strictly later
in the list (they were appended to the Python `order` list earlier). -/
def ChildrenClosed (g : Graph) : List String → Prop
  | [] => True
  | y :: l => (∀ c ∈ C g y, c ∈ l) ∧ ChildrenClosed g l

/-- Invariant tying the worklist to the stack: the worklist decomposes into
consecutive blocks, one per stack entry, such that each block holds pending
references of its stack entry, and every reference of a stack entry is
either already seen or pending in that entry's own block.  Whatever follows
the blocks (unprocessed roots) is unconstrained. -/
def SegInv (g : Graph) (seen : List String) : List String → List String → Prop
  | _, [] => True
  | q, t :: ts => ∃ b qrest, q = b ++ qrest ∧ (∀ x ∈ b, x ∈ C g t) ∧
      (∀ c ∈ C g t, c ∈ seen ∨ c ∈ b) ∧ SegInv g seen qrest ts

theorem StackChain.tail {g : Graph} {a : String} {t : List String}
    (h : StackChain g (a :: t)) : StackChain g t := by
  cases t with
  | nil => trivial
  | cons b t => exact h.2

theorem StackChain.transGen {g : Graph} :
    ∀ {x : String} {l : List String}, StackChain g (x :: l) →
      ∀ y ∈ l, Relation.TransGen (Edge g) y x := by
  intro x l
  induction l generalizing x with
  | nil => intro _ y hy; simp at hy
  | cons z t ih =>
    intro h y hy
    rcases List.mem_cons.mp hy with hz | hyt
    · subst hz
      exact Relation.TransGen.single h.1
    · exact (ih h.2 y hyt).trans (Relation.TransGen.single h.1)

theorem SegInv.mono {g : Graph} {seen seen' : List String}
    (hs : ∀ x ∈ seen, x ∈ seen') :
    ∀ {st q : List String}, SegInv g seen q st → SegInv g seen' q st := by
  intro st
  induction st with
  | nil => intro q _; trivial
  | cons t ts ih =>
    intro q h
    obtain ⟨b, qrest, rfl, hb, hcov, hrec⟩ := h
    exact ⟨b, qrest, rfl, hb, fun c hc => (hcov c hc).imp (hs c) id, ih hrec⟩

theorem SegInv.pop_seen {g : Graph} {seen : List String} {v : String}
    (hv : v ∈ seen) :
    ∀ {st q : List String}, SegInv g seen (v :: q) st → SegInv g seen q st := by
  intro st
  induction st with
  | nil => intro q _; trivial
  | cons t ts ih =>
    intro q h
    obtain ⟨b, qrest, heq, hb, hcov, hrec⟩ := h
    cases b with
    | nil =>
      simp only [List.nil_append] at heq
      subst heq
      refine ⟨[], q, by simp, by simp, ?_, ih hrec⟩
      intro c hc
      rcases hcov c hc with h1 | h1
      · exact Or.inl h1
      · simp at h1
    | cons x b' =>
      simp only [List.cons_append, List.cons.injEq] at heq
      obtain ⟨rfl, heq⟩ := heq
      refine ⟨b', qrest, heq, fun x hx => hb x (by simp [hx]), ?_, hrec⟩
      intro c hc
      rcases hcov c hc with h1 | h1
      · exact Or.inl h1
      · rcases List.mem_cons.mp h1 with rfl | h1
        · exact Or.inl hv
        · exact Or.inr h1

theorem SegInv.nil_closed {g : Graph} {seen : List String} :
    ∀ {st : List String}, SegInv g seen [] st →
      ∀ t ∈ st, ∀ c ∈ C g t, c ∈ seen := by
  intro st
  induction st with
  | nil => intro _ t ht; simp at ht
  | cons t ts ih =>
    intro h u hu c hc
    obtain ⟨b, qrest, heq, _, hcov, hrec⟩ := h
    have hb : b = [] ∧ qrest = [] := by
      constructor
      · cases b with
        | nil => rfl
        | cons x b' => simp at heq
      · cases qrest with
        | nil => rfl
        | cons x q' => cases b <;> simp at heq
    obtain ⟨rfl, rfl⟩ := hb
    rcases List.mem_cons.mp hu with rfl | hu
    · rcases hcov c hc with h1 | h1
      · exact h1
      · simp at h1
    · exact ih hrec u hu c hc

theorem unwind_spec {g : Graph} (hacyc : Acyclic g) (v : String) :
    ∀ (stack order seen q : List String),
    SegInv g seen (v :: q) stack →
    StackChain g stack →
    ChildrenClosed g order →
    (stack ++ order).Nodup →
    (∀ x, x ∈ seen ↔ (x ∈ stack ∨ x ∈ order)) →
    (∀ x ∈ seen, x ∈ graphKeys g) →
    ∃ stack₁ order₁,
      unwind g v stack order = .ok (stack₁, order₁) ∧
      (stack₁ ++ order₁).Perm (stack ++ order) ∧
      StackChain g stack₁ ∧
      ChildrenClosed g order₁ ∧
      SegInv g seen (v :: q) stack₁ ∧
      (∀ h t, stack₁ = h :: t → v ∈ C g h) := by
  intro stack
  induction stack with
  | nil =>
    intro order seen q hseg hchain hclosed hnd hmem hkeys
    exact ⟨[], order, rfl, List.Perm.refl _, trivial, hclosed, hseg,
      fun h t ht => by simp at ht⟩
  | cons s rest ih =>
    intro order seen q hseg hchain hclosed hnd hmem hkeys
    have hskeys : s ∈ graphKeys g :=
      hkeys s ((hmem s).mpr (Or.inl (by simp)))
    obtain ⟨cs, hc⟩ := mem_keys_lookup hskeys
    by_cases hv : v ∈ cs
    · refine ⟨s :: rest, order, ?_, List.Perm.refl _, hchain, hclosed, hseg, ?_⟩
      · simp [unwind, hc, hv]
      · intro h t ht
        have hhs : h = s := by injection ht with h1 _; exact h1.symm
        subst hhs
        simpa [C_eq hc] using hv
    · -- the top of the stack is popped into `order`
      obtain ⟨b, qrest, heq, hb, hcov, hrec⟩ := hseg
      have hbnil : b = [] := by
        cases b with
        | nil => rfl
        | cons x b' =>
          exfalso
          simp only [List.cons_append, List.cons.injEq] at heq
          obtain ⟨rfl, _⟩ := heq
          exact hv (by simpa [C_eq hc] using hb v (by simp))
      subst hbnil
      simp only [List.nil_append] at heq
      subst heq
      have hCs : ∀ c ∈ C g s, c ∈ seen := by
        intro c hcc
        rcases hcov c hcc with h1 | h1
        · exact h1
        · simp at h1
      have hsacyc : ¬ Relation.TransGen (Edge g) s s := hacyc s hskeys
      have hCorder : ∀ c ∈ C g s, c ∈ order := by
        intro c hcc
        rcases (hmem c).mp (hCs c hcc) with h1 | h1
        · rcases List.mem_cons.mp h1 with he | h1
          · subst he
            exact absurd (Relation.TransGen.single hcc) hsacyc
          · exact absurd ((Relation.TransGen.single (hcc : Edge g s c)).trans
              (StackChain.transGen hchain c h1)) hsacyc
        · exact h1
      have hndrec : (rest ++ (s :: order)).Nodup := by
        have h1 : (rest ++ s :: order).Perm (s :: (rest ++ order)) :=
          List.perm_middle
        have h2 : (s :: (rest ++ order)).Nodup := by
          simpa using hnd
        exact (h1.nodup_iff).mpr h2
      have hmemrec : ∀ x, x ∈ seen ↔ (x ∈ rest ∨ x ∈ s :: order) := by
        intro x
        rw [hmem x]
        constructor
        · rintro (h1 | h1)
          · rcases List.mem_cons.mp h1 with rfl | h1
            · exact Or.inr (by simp)
            · exact Or.inl h1
          · exact Or.inr (by simp [h1])
        · rintro (h1 | h1)
          · exact Or.inl (by simp [h1])
          · rcases List.mem_cons.mp h1 with rfl | h1
            · exact Or.inl (by simp)
            · exact Or.inr h1
      obtain ⟨stack₁, order₁, he₁, hperm₁, hchain₁, hclosed₁, hseg₁, hhead₁⟩ :=
        ih (s :: order) seen q hrec hchain.tail ⟨hCorder, hclosed⟩ hndrec
          hmemrec hkeys
      refine ⟨stack₁, order₁, ?_, ?_, hchain₁, hclosed₁, hseg₁, hhead₁⟩
      · simpa [unwind, hc, hv] using he₁
      · exact hperm₁.trans List.perm_middle

/-- Remaining work: one visit plus the fan-out for every entry whose key is
not yet seen.  Together with the worklist length this strictly decreases. -/
def Useen (g : Graph) (seen : List String) : Nat :=
  ((g.filter (fun kv => decide (kv.1 ∉ seen))).map
    (fun kv => kv.2.length + 1)).sum

theorem Useen_cons_mem {k : String} {vs : List String} {seen : List String}
    {t : Graph} (h : k ∈ seen) :
    Useen ((k, vs) :: t) seen = Useen t seen := by
  simp [Useen, List.filter_cons, h]

theorem Useen_cons_not_mem {k : String} {vs : List String} {seen : List String}
    {t : Graph} (h : k ∉ seen) :
    Useen ((k, vs) :: t) seen = vs.length + 1 + Useen t seen := by
  simp [Useen, List.filter_cons, h]

theorem Useen_mono {seen seen' : List String}
    (hs : ∀ x ∈ seen, x ∈ seen') :
    ∀ g : Graph, Useen g seen' ≤ Useen g seen := by
  intro g
  induction g with
  | nil => simp [Useen]
  | cons kv t ih =>
    obtain ⟨k, vs⟩ := kv
    by_cases h1 : k ∈ seen'
    · rw [Useen_cons_mem h1]
      refine le_trans ih ?_
      by_cases h3 : k ∈ seen
      · rw [Useen_cons_mem h3]
      · rw [Useen_cons_not_mem h3]; omega
    · have h3 : k ∉ seen := fun h => h1 (hs _ h)
      rw [Useen_cons_not_mem h1, Useen_cons_not_mem h3]
      omega

theorem Useen_insert {g : Graph} {v : String} {seen : List String}
    (hv : v ∈ graphKeys g) (hvs : v ∉ seen) :
    Useen g (v :: seen) + ((C g v).length + 1) ≤ Useen g seen := by
  induction g with
  | nil => simp [graphKeys] at hv
  | cons kv t ih =>
    obtain ⟨k, vs⟩ := kv
    by_cases hk : v = k
    · subst hk
      have hC : C ((v, vs) :: t) v = vs :=
        C_eq (by simp [childrenOf, List.lookup])
      have h3 : Useen t (v :: seen) ≤ Useen t seen :=
        Useen_mono (by intro x hx; simp [hx]) t
      rw [hC, Useen_cons_mem (by simp), Useen_cons_not_mem hvs]
      omega
    · have hC : C ((k, vs) :: t) v = C t v := by
        simp [C, childrenOf, List.lookup, beq_false_of_ne hk]
      have hvt : v ∈ graphKeys t := by
        rcases List.mem_cons.mp hv with h1 | h1
        · exact absurd h1 hk
        · exact h1
      have ihx := ih hvt
      rw [hC]
      by_cases hks : k ∈ seen
      · rw [Useen_cons_mem hks, Useen_cons_mem (by simp [hks])]
        omega
      · have hkvs : k ∉ v :: seen := by
          simp only [List.mem_cons, not_or]
          exact ⟨fun h => hk h.symm, hks⟩
        rw [Useen_cons_not_mem hks, Useen_cons_not_mem hkvs]
        omega

/-- The full loop invariant of `iterative_topological_sort`'s while-loop. -/
structure Inv (g : Graph) (starts0 seen q stack order : List String) : Prop where
  hq : ∀ x ∈ q, x ∈ graphKeys g
  hseen : ∀ x ∈ seen, x ∈ graphKeys g
  hmem : ∀ x, x ∈ seen ↔ (x ∈ stack ∨ x ∈ order)
  hnd : (stack ++ order).Nodup
  hchain : StackChain g stack
  hclosed : ChildrenClosed g order
  hseg : SegInv g seen q stack
  hstarts : ∀ x ∈ starts0, x ∈ seen ∨ x ∈ q

theorem sortLoop_spec {g : Graph} (hp : IsPruned g) (hacyc : Acyclic g)
    (starts0 : List String) :
    ∀ (fuel : Nat) (q seen stack order : List String),
    Inv g starts0 seen q stack order →
    q.length + Useen g seen < fuel →
    ∃ stack' order' seen',
      sortLoop g fuel seen q stack order = .ok (stack', order') ∧
      Inv g starts0 seen' [] stack' order' ∧
      (∀ x ∈ seen, x ∈ seen') := by
  intro fuel
  induction fuel with
  | zero => intro q seen stack order _ hfuel; omega
  | succ fuel ih =>
    intro q seen stack order hinv hfuel
    match q with
    | [] =>
      exact ⟨stack, order, seen, rfl, hinv, fun x hx => hx⟩
    | v :: q' =>
      by_cases hv : v ∈ seen
      · have hinv' : Inv g starts0 seen q' stack order :=
          { hq := fun x hx => hinv.hq x (by simp [hx])
            hseen := hinv.hseen
            hmem := hinv.hmem
            hnd := hinv.hnd
            hchain := hinv.hchain
            hclosed := hinv.hclosed
            hseg := SegInv.pop_seen hv hinv.hseg
            hstarts := by
              intro x hx
              rcases hinv.hstarts x hx with h1 | h1
              · exact Or.inl h1
              · rcases List.mem_cons.mp h1 with he | h1
                · exact Or.inl (he ▸ hv)
                · exact Or.inr h1 }
        obtain ⟨stack', order', seen', he, hinvf, hmono⟩ :=
          ih q' seen stack order hinv' (by simp at hfuel ⊢; omega)
        exact ⟨stack', order', seen', by simpa [sortLoop, hv] using he,
          hinvf, hmono⟩
      · have hvk : v ∈ graphKeys g := hinv.hq v (by simp)
        obtain ⟨cs, hc⟩ := mem_keys_lookup hvk
        obtain ⟨stack₁, order₁, he₁, hperm₁, hchain₁, hclosed₁, hseg₁, hhead₁⟩ :=
          unwind_spec hacyc v stack order seen q' hinv.hseg hinv.hchain
            hinv.hclosed hinv.hnd hinv.hmem hinv.hseen
        have hvnot₁ : v ∉ stack₁ ++ order₁ := by
          intro hmem₁
          have := hperm₁.mem_iff.mp hmem₁
          rcases List.mem_append.mp this with h1 | h1
          · exact hv ((hinv.hmem v).mpr (Or.inl h1))
          · exact hv ((hinv.hmem v).mpr (Or.inr h1))
        have hinv₂ : Inv g starts0 (v :: seen) (cs.reverse ++ q')
            (v :: stack₁) order₁ :=
          { hq := by
              intro x hx
              rcases List.mem_append.mp hx with h1 | h1
              · exact pruned_children hp hc x (List.mem_reverse.mp h1)
              · exact hinv.hq x (by simp [h1])
            hseen := by
              intro x hx
              rcases List.mem_cons.mp hx with he | h1
              · exact he ▸ hvk
              · exact hinv.hseen x h1
            hmem := by
              intro x
              simp only [List.mem_cons]
              constructor
              · rintro (he | h1)
                · exact Or.inl (Or.inl he)
                · rcases (hinv.hmem x).mp h1 with h2 | h2
                  · have : x ∈ stack₁ ++ order₁ :=
                      hperm₁.mem_iff.mpr (List.mem_append.mpr (Or.inl h2))
                    rcases List.mem_append.mp this with h3 | h3
                    · exact Or.inl (Or.inr h3)
                    · exact Or.inr h3
                  · have : x ∈ stack₁ ++ order₁ :=
                      hperm₁.mem_iff.mpr (List.mem_append.mpr (Or.inr h2))
                    rcases List.mem_append.mp this with h3 | h3
                    · exact Or.inl (Or.inr h3)
                    · exact Or.inr h3
              · rintro ((he | h1) | h1)
                · exact Or.inl he
                · refine Or.inr ((hinv.hmem x).mpr ?_)
                  have : x ∈ stack ++ order :=
                    hperm₁.mem_iff.mp (List.mem_append.mpr (Or.inl h1))
                  exact List.mem_append.mp this
                · refine Or.inr ((hinv.hmem x).mpr ?_)
                  have : x ∈ stack ++ order :=
                    hperm₁.mem_iff.mp (List.mem_append.mpr (Or.inr h1))
                  exact List.mem_append.mp this
            hnd := by
              have h1 : (stack₁ ++ order₁).Nodup :=
                hperm₁.nodup_iff.mpr hinv.hnd
              simpa using And.intro hvnot₁ h1
            hchain := by
              cases hst : stack₁ with
              | nil => trivial
              | cons h t => exact ⟨hhead₁ h t hst, hst ▸ hchain₁⟩
            hclosed := hclosed₁
            hseg := by
              refine ⟨cs.reverse, q', rfl, ?_, ?_, ?_⟩
              · intro x hx
                rw [C_eq hc]
                exact List.mem_reverse.mp hx
              · intro c hcc
                rw [C_eq hc] at hcc
                exact Or.inr (List.mem_reverse.mpr hcc)
              · exact SegInv.pop_seen (by simp)
                  (SegInv.mono (by intro x hx; simp [hx]) hseg₁)
            hstarts := by
              intro x hx
              rcases hinv.hstarts x hx with h1 | h1
              · exact Or.inl (by simp [h1])
              · rcases List.mem_cons.mp h1 with he | h1
                · exact Or.inl (by simp [he])
                · exact Or.inr (List.mem_append.mpr (Or.inr h1)) }
      -- fuel bookkeeping
        have hCv : C g v = cs := C_eq hc
        have hins := Useen_insert hvk hv
        rw [hCv] at hins
        have hfuel₂ : (cs.reverse ++ q').length + Useen g (v :: seen) < fuel := by
          simp only [List.length_append, List.length_reverse] at *
          simp only [List.length_cons] at hfuel
          omega
        obtain ⟨stack', order', seen', he, hinvf, hmono⟩ :=
          ih (cs.reverse ++ q') (v :: seen) (v :: stack₁) order₁ hinv₂ hfuel₂
        refine ⟨stack', order', seen', ?_, hinvf, ?_⟩
        · simpa [sortLoop, hv, hc, he₁] using he
        · intro x hx
          exact hmono x (by simp [hx])

theorem cc_mem_subset {g : Graph} :
    ∀ {l : List String}, ChildrenClosed g l →
      ∀ z ∈ l, ∀ c ∈ C g z, c ∈ l := by
  intro l
  induction l with
  | nil => intro _ z hz; simp at hz
  | cons w t ih =>
    intro h z hz c hc
    rcases List.mem_cons.mp hz with he | hz
    · subst he
      exact List.mem_cons_of_mem _ (h.1 c hc)
    · exact List.mem_cons_of_mem _ (ih h.2 z hz c hc)

theorem cc_pairwise {g : Graph} :
    ∀ {l : List String}, ChildrenClosed g l → l.Nodup →
      l.Pairwise (fun a b => a ∉ C g b) := by
  intro l
  induction l with
  | nil => intro _ _; exact List.Pairwise.nil
  | cons y t ih =>
    intro h hnd
    refine List.Pairwise.cons ?_ (ih h.2 (List.Nodup.of_cons hnd))
    intro z hz hyz
    have hy : y ∈ t := cc_mem_subset h.2 z hz y hyz
    exact (List.nodup_cons.mp hnd).1 hy

theorem chain_pairwise {g : Graph} (hacyc : Acyclic g) :
    ∀ {stack : List String}, StackChain g stack →
      (∀ x ∈ stack, x ∈ graphKeys g) →
      stack.Pairwise (fun a b => b ∉ C g a) := by
  intro stack
  induction stack with
  | nil => intro _ _; exact List.Pairwise.nil
  | cons x t ih =>
    intro h hk
    refine List.Pairwise.cons ?_ (ih h.tail (fun z hz => hk z (by simp [hz])))
    intro z hz hxz
    exact hacyc x (hk x (by simp))
      ((Relation.TransGen.single (hxz : Edge g x z)).trans
        (StackChain.transGen h z hz))

/-- The concatenated result of the loop never places a node after one of its
references: no earlier element is referenced by a later element. -/
theorem result_pairwise {g : Graph} (hacyc : Acyclic g)
    {stack order : List String} (hchain : StackChain g stack)
    (hclosed : ChildrenClosed g order) (hnd : (stack ++ order).Nodup)
    (hkeys : ∀ x ∈ stack, x ∈ graphKeys g) :
    (stack.reverse ++ order).Pairwise (fun a b => ¬ Edge g b a) := by
  rw [List.pairwise_append]
  refine ⟨?_, ?_, ?_⟩
  · rw [List.pairwise_reverse]
    have := chain_pairwise hacyc hchain hkeys
    exact this.imp (fun h => h)
  · have := cc_pairwise hclosed ((List.nodup_append.mp hnd).2.1)
    exact this.imp (fun h => h)
  · intro a ha b hb hEdge
    have hao : a ∈ stack := List.mem_reverse.mp ha
    have : a ∈ C g b := hEdge
    have hax : a ∈ order := cc_mem_subset hclosed b hb a this
    exact (List.disjoint_of_nodup_append hnd) hao hax

end Coffee

namespace Coffee

/-- The start set exactly as `find_topological_graph_starts` computes it. -/
def startsOf (g : Graph) : List String :=
  (graphKeys g).filter (fun k => !(((g.map Prod.snd).flatten).contains k))

theorem find_starts_eq (g : Graph) :
    find_topological_graph_starts g =
      if (startsOf g).length = 0 then
        .error "Graph does not have a start node - no item is set to calculation"
      else .ok (startsOf g) := rfl

theorem find_starts_ok {g : Graph} {s : List String}
    (h : find_topological_graph_starts g = .ok s) :
    s = startsOf g ∧ s ≠ [] := by
  rw [find_starts_eq] at h
  by_cases h0 : (startsOf g).length = 0
  · simp [h0] at h
  · simp [h0] at h
    subst h
    exact ⟨rfl, by intro hnil; rw [hnil] at h0; simp at h0⟩

theorem startsOf_subset_keys (g : Graph) : ∀ x ∈ startsOf g, x ∈ graphKeys g := by
  intro x hx
  exact List.mem_of_mem_filter hx

theorem startsOf_unreferenced {g : Graph} {k : String} :
    k ∈ startsOf g ↔ Unreferenced g k := by
  unfold startsOf Unreferenced
  rw [List.mem_filter]
  constructor
  · rintro ⟨h1, h2⟩
    refine ⟨h1, ?_⟩
    intro kv hkv hk2
    have h3 : k ∉ (g.map Prod.snd).flatten := by simpa using h2
    exact h3 (List.mem_flatten.mpr ⟨kv.2, List.mem_map.mpr ⟨kv, hkv, rfl⟩, hk2⟩)
  · rintro ⟨h1, h2⟩
    refine ⟨h1, ?_⟩
    have h3 : k ∉ (g.map Prod.snd).flatten := by
      intro hk
      obtain ⟨vs, hvs, hkvs⟩ := List.mem_flatten.mp hk
      obtain ⟨kv, hkv, rfl⟩ := List.mem_map.mp hvs
      exact h2 kv hkv hkvs
    simpa using h3

/-- With unique keys (as in a Python dict), membership of an entry pins down
its lookup value. -/
theorem lookup_of_mem_nodup :
    ∀ {g : Graph}, (graphKeys g).Nodup →
      ∀ {kv : String × List String}, kv ∈ g → List.lookup kv.1 g = some kv.2 := by
  intro g
  induction g with
  | nil => intro _ kv hkv; simp at hkv
  | cons kv' t ih =>
    intro hnd kv hkv
    rcases List.mem_cons.mp hkv with he | hkv'
    · subst he
      simp [List.lookup]
    · have hne : kv.1 ≠ kv'.1 := by
        intro he
        have h1 : kv'.1 ∈ graphKeys t := by
          rw [← he]
          exact List.mem_map.mpr ⟨kv, hkv', rfl⟩
        exact (List.nodup_cons.mp hnd).1 h1
      rw [List.lookup, beq_false_of_ne hne]
      exact ih (List.Nodup.of_cons hnd) hkv'

/-- Nodes that are not start nodes are referenced by some key whose lookup
value contains them (needs unique keys, as Python dicts have). -/
theorem not_start_referenced {g : Graph} (hnd : (graphKeys g).Nodup)
    {x : String} (hx : x ∈ graphKeys g) (hxs : x ∉ startsOf g) :
    ∃ y, Edge g y x := by
  have h2 : ¬ Unreferenced g x := fun h => hxs (startsOf_unreferenced.mpr h)
  unfold Unreferenced at h2
  push_neg at h2
  obtain ⟨kv, hkv, hk2⟩ := h2 hx
  refine ⟨kv.1, ?_⟩
  unfold Edge
  rw [C_eq (lookup_of_mem_nodup hnd hkv : childrenOf g kv.1 = some kv.2)]
  exact hk2

/-- In an acyclic graph with unique keys, every key is reachable along
reference edges from some start node. -/
theorem keys_reachable {g : Graph} (hacyc : Acyclic g)
    (hnd : (graphKeys g).Nodup) :
    ∀ x ∈ graphKeys g, ∃ r ∈ startsOf g,
      Relation.ReflTransGen (Edge g) r x := by
  have hfin : Finite {x : String // x ∈ graphKeys g} :=
    (List.finite_toSet (graphKeys g)).to_subtype
  let rel : {x : String // x ∈ graphKeys g} → {x : String // x ∈ graphKeys g} →
      Prop := fun a b => Edge g a.1 b.1
  have hirr : IsIrrefl _ (Relation.TransGen rel) := by
    refine ⟨fun a ha => ?_⟩
    refine hacyc a.1 a.2 ?_
    exact Relation.TransGen.lift Subtype.val (fun p q h => h) ha
  have hwf : WellFounded rel :=
    Subrelation.wf (fun h => Relation.TransGen.single h)
      (@Finite.wellFounded_of_trans_of_irrefl _ hfin _ inferInstance hirr)
  intro x hx
  refine hwf.induction (C := fun z => ∃ r ∈ startsOf g,
    Relation.ReflTransGen (Edge g) r z.1) ⟨x, hx⟩ ?_
  intro w ihw
  by_cases hw : w.1 ∈ startsOf g
  · exact ⟨w.1, hw, Relation.ReflTransGen.refl⟩
  · obtain ⟨y, hy⟩ := not_start_referenced hnd w.2 hw
    obtain ⟨r, hr, hrtg⟩ := ihw ⟨y, edge_mem_keys hy⟩ hy
    exact ⟨r, hr, hrtg.tail hy⟩

theorem prune_keys (g : Graph) :
    graphKeys (prune_missing_from_graph g) = graphKeys g := by
  simp [graphKeys, prune_missing_from_graph, List.map_map]

theorem prune_pruned (g : Graph) : IsPruned (prune_missing_from_graph g) := by
  intro kv hkv c hc
  rw [prune_keys]
  obtain ⟨kv₀, _, rfl⟩ := List.mem_map.mp hkv
  have h2 := List.mem_filter.mp hc
  simpa using h2.2

/-- Everything `iterative_topological_sort` guarantees on a pruned acyclic
graph seeded with the computed start nodes: it succeeds, its (non-reversed)
result is a permutation of the keys, and no earlier element of the result is
referenced by a later element. -/
theorem itsort_master {g : Graph} (hp : IsPruned g) (hacyc : Acyclic g)
    (hnd : (graphKeys g).Nodup) {starts : List String}
    (hstarts : find_topological_graph_starts g = .ok starts) :
    ∃ res, iterative_topological_sort g starts false = .ok res ∧
      res.Perm (graphKeys g) ∧
      res.Pairwise (fun a b => ¬ Edge g b a) := by
  obtain ⟨hseq, hsne⟩ := find_starts_ok hstarts
  have hsk : ∀ x ∈ starts, x ∈ graphKeys g := by
    intro x hx
    exact startsOf_subset_keys g x (hseq ▸ hx)
  have hinv0 : Inv g starts [] starts.reverse [] [] :=
    { hq := fun x hx => hsk x (List.mem_reverse.mp hx)
      hseen := by intro x hx; simp at hx
      hmem := by intro x; simp
      hnd := by simp
      hchain := trivial
      hclosed := trivial
      hseg := trivial
      hstarts := fun x hx => Or.inr (List.mem_reverse.mpr hx) }
  have hfuel : (starts.reverse).length + Useen g [] < sortFuel g starts := by
    have hU : Useen g [] = (g.map (fun kv => kv.2.length + 1)).sum := by
      simp [Useen]
    simp [sortFuel, hU]
  obtain ⟨stack', order', seen', he, hinvf, _⟩ :=
    sortLoop_spec hp hacyc starts (sortFuel g starts) starts.reverse [] [] []
      hinv0 hfuel
  refine ⟨stack'.reverse ++ order', ?_, ?_, ?_⟩
  · simp [iterative_topological_sort, he]
  · have hmemres : ∀ x, x ∈ stack'.reverse ++ order' ↔ x ∈ seen' := by
      intro x
      rw [List.mem_append, List.mem_reverse, ← hinvf.hmem x]
    have hndres : (stack'.reverse ++ order').Nodup := by
      have hpm : (stack'.reverse ++ order').Perm (stack' ++ order') :=
        (List.reverse_perm _).append_right _
      exact hpm.nodup_iff.mpr hinvf.hnd
    have hclosedseen : ∀ x ∈ seen', ∀ c ∈ C g x, c ∈ seen' := by
      intro x hx c hc
      rcases (hinvf.hmem x).mp hx with h1 | h1
      · exact SegInv.nil_closed hinvf.hseg x h1 c hc
      · exact (hinvf.hmem c).mpr (Or.inr (cc_mem_subset hinvf.hclosed x h1 c hc))
    have hwalk : ∀ a b, Relation.ReflTransGen (Edge g) a b →
        a ∈ seen' → b ∈ seen' := by
      intro a b h
      induction h with
      | refl => exact fun ha => ha
      | tail _ h2 ih => exact fun ha => hclosedseen _ (ih ha) _ h2
    have hkeysub : ∀ x ∈ graphKeys g, x ∈ seen' := by
      intro x hx
      obtain ⟨r, hr, hrt⟩ := keys_reachable hacyc hnd x hx
      have hrseen : r ∈ seen' := by
        rcases hinvf.hstarts r (by rw [hseq]; exact hr) with h1 | h1
        · exact h1
        · simp at h1
      exact hwalk r x hrt hrseen
    refine (List.perm_ext_iff_of_nodup hndres hnd).mpr ?_
    intro a
    rw [hmemres]
    exact ⟨hinvf.hseen a, hkeysub a⟩
  · exact result_pairwise hacyc hinvf.hchain hinvf.hclosed hinvf.hnd
      (fun x hx => hinvf.hseen x ((hinvf.hmem x).mpr (Or.inl hx)))

/-- The loop body never looks at the `reverse` flag; the flag only reverses
the final concatenation. -/
theorem itsort_reverse_eq (g : Graph) (starts : List String) :
    iterative_topological_sort g starts true =
      (iterative_topological_sort g starts false).map List.reverse := by
  unfold iterative_topological_sort
  cases h : sortLoop g (sortFuel g starts) [] starts.reverse [] [] with
  | error e => rfl
  | ok p => rfl

end Coffee

namespace Coffee

/-- C1 counterexample: in the pruned graph of `{B: [A], A: []}` the computed
root set is `[B]` and the non-reversed ordering is `[B, A]`: for the edge
B → A the referenced name A appears at index 1, strictly *later* than B at
index 0 — not strictly earlier as the claim states. -/
theorem claim_C1_counterexample :
    find_topological_graph_starts
        (prune_missing_from_graph [("B", ["A"]), ("A", [])]) = .ok ["B"] ∧
    iterative_topological_sort
        (prune_missing_from_graph [("B", ["A"]), ("A", [])]) ["B"] false =
      .ok ["B", "A"] ∧
    Edge (prune_missing_from_graph [("B", ["A"]), ("A", [])]) "B" "A" ∧
    ¬ (∃ i j : Fin 2, (["B", "A"] : List String).get i = "A" ∧
        (["B", "A"] : List String).get j = "B" ∧ (i : Nat) < (j : Nat)) := by
  refine ⟨rfl, rfl, ?_, by decide⟩
  simp only [Edge]
  decide

/-- C1 (amended): for every acyclic pruned graph with unique keys (as built
from a Python dict) and its computed root set, and for every edge A → B of
the pruned graph, the referenced name B appears at a strictly *later* index
than A in the non-reversed output of `iterative_topological_sort`
(equivalently, strictly earlier in the reversed output, which is the one
`sort_data_topological` requests). -/
theorem claim_C1_amended {g₀ : Graph}
    (hnd : (graphKeys (prune_missing_from_graph g₀)).Nodup)
    (hacyc : Acyclic (prune_missing_from_graph g₀))
    {starts res : List String}
    (hstarts : find_topological_graph_starts (prune_missing_from_graph g₀) =
      .ok starts)
    (hres : iterative_topological_sort (prune_missing_from_graph g₀) starts
      false = .ok res)
    {a b : String} (hedge : Edge (prune_missing_from_graph g₀) a b)
    (i j : Fin res.length) (ha : res.get i = a) (hb : res.get j = b) :
    (i : Nat) < (j : Nat) := by
  obtain ⟨res', hres', hperm, hpw⟩ :=
    itsort_master (prune_pruned g₀) hacyc hnd hstarts
  rw [hres'] at hres
  injection hres with hres
  subst hres
  rcases lt_trichotomy (i : Nat) (j : Nat) with h | h | h
  · exact h
  · exfalso
    have hij : i = j := Fin.ext h
    subst hij
    rw [ha] at hb
    subst hb
    exact hacyc a (edge_mem_keys hedge) (Relation.TransGen.single hedge)
  · exfalso
    have := List.pairwise_iff_get.mp hpw j i (by exact h)
    rw [ha, hb] at this
    exact this hedge

theorem claim_C1_witness : (0 : Nat) < (1 : Nat) :=
  claim_C1_amended (by decide)
    (acyclic_of_rank _ (fun s => if s = "B" then 1 else 0) (by decide))
    (show find_topological_graph_starts
        (prune_missing_from_graph [("B", ["A"]), ("A", [])]) =
      Except.ok ["B"] from rfl)
    (show iterative_topological_sort
        (prune_missing_from_graph [("B", ["A"]), ("A", [])]) ["B"] false =
      Except.ok ["B", "A"] from rfl)
    (show Edge (prune_missing_from_graph [("B", ["A"]), ("A", [])]) "B" "A"
      from by simp only [Edge]; decide)
    ⟨0, by decide⟩ ⟨1, by decide⟩ rfl rfl

/-- C2 counterexample: the pruned graph of `{A: [B], B: [A], C: []}` has the
computed root set `[C]`, but the returned list `[C]` is not a permutation of
the key set `[A, B, C]` — the cycle `A ↔ B` is unreachable from the roots
and is silently dropped. -/
theorem claim_C2_counterexample :
    find_topological_graph_starts
        (prune_missing_from_graph [("A", ["B"]), ("B", ["A"]), ("C", [])]) =
      .ok ["C"] ∧
    iterative_topological_sort
        (prune_missing_from_graph [("A", ["B"]), ("B", ["A"]), ("C", [])])
        ["C"] false = .ok ["C"] ∧
    ¬ (["C"] : List String).Perm
        (graphKeys (prune_missing_from_graph
          [("A", ["B"]), ("B", ["A"]), ("C", [])])) := by
  refine ⟨rfl, rfl, by decide⟩

/-- C2 (amended): for every *acyclic* pruned graph with unique keys and its
computed root set, `iterative_topological_sort` succeeds (with either value
of the reverse flag) and returns a permutation of exactly the graph's key
set — every node name exactly once. -/
theorem claim_C2_amended {g₀ : Graph}
    (hnd : (graphKeys (prune_missing_from_graph g₀)).Nodup)
    (hacyc : Acyclic (prune_missing_from_graph g₀))
    {starts : List String}
    (hstarts : find_topological_graph_starts (prune_missing_from_graph g₀) =
      .ok starts) (reverse : Bool) :
    ∃ res, iterative_topological_sort (prune_missing_from_graph g₀) starts
        reverse = .ok res ∧
      res.Perm (graphKeys (prune_missing_from_graph g₀)) := by
  obtain ⟨res, hres, hperm, _⟩ :=
    itsort_master (prune_pruned g₀) hacyc hnd hstarts
  cases reverse with
  | false => exact ⟨res, hres, hperm⟩
  | true =>
    refine ⟨res.reverse, ?_, (List.reverse_perm res).trans hperm⟩
    rw [itsort_reverse_eq, hres]
    rfl

theorem claim_C2_witness :
    ∃ res, iterative_topological_sort
        (prune_missing_from_graph [("B", ["A"]), ("A", [])]) ["B"] false =
      .ok res ∧
      res.Perm (graphKeys (prune_missing_from_graph [("B", ["A"]), ("A", [])])) :=
  claim_C2_amended (by decide)
    (acyclic_of_rank _ (fun s => if s = "B" then 1 else 0) (by decide))
    (show find_topological_graph_starts
        (prune_missing_from_graph [("B", ["A"]), ("A", [])]) =
      Except.ok ["B"] from rfl) false

/-- C3 counterexample: on the *empty* graph the set of unreferenced keys is
empty but the graph has no node, so by the claim the helper should not
raise; the code raises unconditionally whenever the start list is empty. -/
theorem claim_C3_counterexample :
    (∃ e, find_topological_graph_starts ([] : Graph) = .error e) ∧
    graphKeys ([] : Graph) = [] :=
  ⟨⟨"Graph does not have a start node - no item is set to calculation", rfl⟩,
    rfl⟩

/-- C3 (amended): `find_topological_graph_starts` raises the
no-root error exactly when the set of keys that never appear in any value
list is empty — including the empty graph — and otherwise returns exactly
that non-empty set of unreferenced keys. -/
theorem claim_C3_amended (g : Graph) :
    ((∃ e, find_topological_graph_starts g = .error e) ↔
      ¬ ∃ k, Unreferenced g k) ∧
    (∀ s, find_topological_graph_starts g = .ok s →
      (∀ k, (k ∈ s ↔ Unreferenced g k)) ∧ s ≠ []) := by
  constructor
  · rw [find_starts_eq]
    by_cases h0 : (startsOf g).length = 0
    · rw [if_pos h0]
      have hnil : startsOf g = [] := List.length_eq_zero.mp h0
      constructor
      · rintro - ⟨k, hk⟩
        have hks : k ∈ startsOf g := startsOf_unreferenced.mpr hk
        rw [hnil] at hks
        simp at hks
      · intro _
        exact ⟨"Graph does not have a start node - no item is set to calculation",
          rfl⟩
    · rw [if_neg h0]
      constructor
      · rintro ⟨e, he⟩
        simp at he
      · intro h
        exfalso
        have hne : startsOf g ≠ [] := fun hh => h0 (by rw [hh]; rfl)
        obtain ⟨k, hk⟩ := List.exists_mem_of_ne_nil _ hne
        exact h ⟨k, startsOf_unreferenced.mp hk⟩
  · intro s hs
    obtain ⟨rfl, hne⟩ := find_starts_ok hs
    exact ⟨fun k => startsOf_unreferenced, hne⟩

theorem claim_C3_witness :
    (∀ k, (k ∈ ["A"] ↔ Unreferenced [("A", ["B"]), ("B", [])] k)) ∧
      (["A"] : List String) ≠ [] :=
  (claim_C3_amended [("A", ["B"]), ("B", [])]).2 ["A"] rfl

/-- C4 (confirmed): pruning keeps exactly the input key sequence, and after
pruning every name occurring in a value list is a key of the graph — no
reference to a name outside the key set survives. -/
theorem claim_C4 (g : Graph) :
    graphKeys (prune_missing_from_graph g) = graphKeys g ∧
    (∀ kv ∈ prune_missing_from_graph g, ∀ c ∈ kv.2,
      c ∈ graphKeys (prune_missing_from_graph g)) ∧
    (∀ kv ∈ prune_missing_from_graph g, ∀ v, v ∉ graphKeys g → v ∉ kv.2) := by
  refine ⟨prune_keys g, prune_pruned g, ?_⟩
  intro kv hkv v hv hvm
  exact hv (by rw [← prune_keys g]; exact prune_pruned g kv hkv v hvm)

theorem claim_C4_witness :
    graphKeys (prune_missing_from_graph [("A", ["B", "X"]), ("B", [])]) =
      graphKeys [("A", ["B", "X"]), ("B", [])] ∧ "X" ∉ ["B"] :=
  ⟨(claim_C4 [("A", ["B", "X"]), ("B", [])]).1,
    (claim_C4 [("A", ["B", "X"]), ("B", [])]).2.2 ("A", ["B"]) (by decide)
      "X" (by decide)⟩

/-- C8 (confirmed): for every graph and every root list, the output with
reverse=true is exactly the reversal of the output with reverse=false
(including agreement on failure). -/
theorem claim_C8 (g : Graph) (starts : List String) :
    iterative_topological_sort g starts true =
      (iterative_topological_sort g starts false).map List.reverse :=
  itsort_reverse_eq g starts

/-!
The DataFrame layer.  A pandas DataFrame is embedded as a column-name list
plus rows of cells aligned positionally with the columns.  Cell values are
restricted to the shapes the library manipulates: strings, booleans, the
null/NaN marker, and lists of extracted names.
-/

inductive Val where
  | vstr (s : String)
  | vbool (b : Bool)
  | vnull
  | vlist (xs : List String)
deriving DecidableEq

structure DF where
  cols : List String
  rows : List (List Val)
deriving DecidableEq

/-- Every row has exactly one cell per column. -/
def DF.WF (df : DF) : Prop := ∀ r ∈ df.rows, r.length = df.cols.length

/-- Position of a column label, if present. -/
def colIdx (cols : List String) (c : String) : Option Nat :=
  cols.findIdx? (fun c' => c' == c)

/-- `row[c]` for a row of the frame; `none` models a missing column
(`KeyError`). -/
def getCell (cols : List String) (row : List Val) (c : String) : Option Val :=
  match colIdx cols c with
  | none => none
  | some i => row[i]?

/-- pandas `notnull`. -/
def vnotnull (v : Val) : Bool := v != Val.vnull

/-- Python `str()` of a cell value (only string cells matter for the graph
keys in the claims; the remaining branches render Python's `str` output). -/
def pyStr (v : Val) : String :=
  match v with
  | .vstr s => s
  | .vbool true => "True"
  | .vbool false => "False"
  | .vnull => "nan"
  | .vlist xs => "[" ++ String.intercalate ", " xs ++ "]"

/-- `df[c] = vals`: pandas column assignment replaces an existing column in
place and otherwise appends a new one. -/
def setCol (df : DF) (c : String) (vals : List Val) : DF :=
  match colIdx df.cols c with
  | some i => ⟨df.cols, (df.rows.zip vals).map (fun rv => rv.1.set i rv.2)⟩
  | none => ⟨df.cols ++ [c], (df.rows.zip vals).map (fun rv => rv.1 ++ [rv.2])⟩

/-- `df.drop(c, axis=1)` (only ever used on a present column). -/
def dropCol (df : DF) (c : String) : DF :=
  match colIdx df.cols c with
  | some i => ⟨df.cols.eraseIdx i, df.rows.map (fun r => r.eraseIdx i)⟩
  | none => df

/-- The character class `[A-Z0-9_]` of the extraction pattern. -/
def isNameChar (c : Char) : Bool := c.isUpper || c.isDigit || c == '_'

/-- Longest prefix of name characters plus the remainder. -/
def takeRun : List Char → List Char × List Char
  | [] => ([], [])
  | c :: cs =>
    if isNameChar c then
      let p := takeRun cs
      (c :: p.1, p.2)
    else ([], c :: cs)

theorem takeRun_rest_le : ∀ l : List Char, (takeRun l).2.length ≤ l.length := by
  intro l
  induction l with
  | nil => simp [takeRun]
  | cons c cs ih =>
    by_cases h : isNameChar c
    · simp only [takeRun, h, if_pos]
      exact le_trans ih (by simp)
    · simp [takeRun, h]

/-- `re.findall(r'\[([A-Z0-9_]+)\]', s)` over the character list: scan left
to right; at `[` take the longest run of name characters; if nonempty and
closed by `]`, emit it and continue past the `]`, else resume scanning right
after the `[` (exactly the regex engine's restart-at-next-position
behaviour, since no match can begin inside a run).  The fuel argument keeps
the recursion structural — every call strictly shortens the list, so
`l.length` fuel is always enough (`findAllAuxF_fuel`). -/
def findAllAuxF : Nat → List Char → List String
  | 0, _ => []
  | _ + 1, [] => []
  | fuel + 1, c :: rest =>
    if c = '[' then
      let p := takeRun rest
      match p.2 with
      | [] => findAllAuxF fuel rest
      | c' :: rest'' =>
        if c' = ']' then
          if p.1.isEmpty then findAllAuxF fuel rest
          else String.mk p.1 :: findAllAuxF fuel rest''
        else findAllAuxF fuel rest
    else findAllAuxF fuel rest

def findAll (s : String) : List String := findAllAuxF s.data.length s.data

/-- pandas boolean-mask truthiness of a cell (non-boolean cells never
select a row; the library only builds boolean flag columns). -/
def truthy (v : Option Val) : Bool :=
  match v with
  | some (Val.vbool b) => b
  | _ => false

/-- The fallback row-selection used when the is-calculation column is
absent: `notnull & str.strip().astype(bool)`.  A null is never selected; a
non-empty trimmed string is; non-string non-null cells become NaN under
`.str.strip()` and `astype(bool)` maps NaN to True. -/
def formulaTruthy (v : Option Val) : Bool :=
  match v with
  | some (Val.vstr s) => !(s.trim == "")
  | some Val.vnull => false
  | none => false
  | some (Val.vbool _) => true
  | some (Val.vlist _) => true

/-- Python source of `extract_formula_children`: copy the frame, initialise
the children column to empty lists, then overwrite the selected rows with
`str.findall` of the formula column.  `str.findall` of a null (or other
non-string) cell yields NaN, embedded as `vnull`.  A missing formula column
raises `KeyError` on either selection path. -/
def extract_formula_children (df : DF) (formula_col is_calc_col
    children_col : String) : Except String DF :=
  if formula_col ∈ df.cols then
    let mask : List Bool :=
      if is_calc_col ∈ df.cols then
        df.rows.map (fun r => truthy (getCell df.cols r is_calc_col))
      else
        df.rows.map (fun r => formulaTruthy (getCell df.cols r formula_col))
    let newVals : List Val :=
      (df.rows.zip mask).map (fun rm =>
        if rm.2 then
          match getCell df.cols rm.1 formula_col with
          | some (Val.vstr s) => Val.vlist (findAll s)
          | _ => Val.vnull
        else Val.vlist [])
    .ok (setCol df children_col newVals)
  else
    .error "KeyError: formula column not in DataFrame"

/-- Python dict assignment `d[k] = v`: update in place or append. -/
def dictInsertP {β : Type} (m : List (String × β)) (k : String) (v : β) :
    List (String × β) :=
  if k ∈ m.map Prod.fst then
    m.map (fun kv => if kv.1 = k then (k, v) else kv)
  else m ++ [(k, v)]

/-- Building a Python dict row by row: compute a key/value pair per row
(possibly raising) and assign it. -/
def buildDictGo {β : Type} (f : List Val → Except String (String × β)) :
    List (String × β) → List (List Val) → Except String (List (String × β))
  | acc, [] => .ok acc
  | acc, r :: rest =>
    match f r with
    | .error e => .error e
    | .ok kv => buildDictGo f (dictInsertP acc kv.1 kv.2) rest

def buildDict {β : Type} (rows : List (List Val))
    (f : List Val → Except String (String × β)) :
    Except String (List (String × β)) :=
  buildDictGo f [] rows

/-- `name_graph[str(row[item_col])] = row[children_col]` over `iterrows()`.
A missing item column raises `KeyError`.  A children cell that is not a
list (the NaN produced for a flagged row with a null formula) makes the
pipeline fail: Python raises `TypeError` one line later, when
`prune_missing_from_graph` iterates the value; the embedding reports the
error at graph-building time, with the same observable outcome (the
exception propagates, nothing is returned). -/
def buildNameGraph (df : DF) (item_col children_col : String) :
    Except String Graph :=
  buildDict df.rows (fun r =>
    match getCell df.cols r item_col with
    | none => Except.error "KeyError: item column"
    | some nameV =>
      match getCell df.cols r children_col with
      | some (Val.vlist cs) => Except.ok (pyStr nameV, cs)
      | _ => Except.error "TypeError: children cell is not a list")

/-- `item_name_map = {str(item['name']): item for index, item in
df.iterrows()}` — note the hard-coded `'name'` column (not `item_col`),
exactly as in the source. -/
def buildNameMap (df : DF) : Except String (List (String × List Val)) :=
  buildDict df.rows (fun r =>
    match getCell df.cols r "name" with
    | none => Except.error "KeyError: name"
    | some v => Except.ok (pyStr v, r))

inductive SortResult where
  | single (df : DF)
  | pair (inTree indep : DF)
deriving DecidableEq

/-- Row classification of the split path: `x[item_col] in calculations or
x[item_col] in all_children` (raw-value equality against the calculation
rows' item cells; string membership against the pruned children). -/
def calcStatus (cols : List String) (calculations : List Val)
    (allChildren : List String) (item_col : String) (r : List Val) :
    Except String Bool :=
  match getCell cols r item_col with
  | none => .error "KeyError: item column"
  | some v => .ok (calculations.contains v ||
      (match v with
       | Val.vstr s => allChildren.contains s
       | _ => false))

/-- `df[is_calc_col] = df[formula_col].notnull().astype(bool)` — executed
only when the column is absent, and executed on the caller's frame. -/
def augmentCalcCol (df : DF) (formula_col is_calc_col : String) : DF :=
  if is_calc_col ∈ df.cols then df
  else setCol df is_calc_col
    (df.rows.map (fun r =>
      Val.vbool (vnotnull ((getCell df.cols r formula_col).getD Val.vnull))))

/-- The `split:` branch: collect the item cells of the flagged rows, the
flattened pruned children, classify every row, materialise the helper
`calculation_status` column, filter on it twice and drop it from both
returned frames. -/
def colVals (cols : List String) (c : String) :
    List (List Val) → Except String (List Val)
  | [] => .ok []
  | r :: t =>
    match getCell cols r c with
    | none => .error "KeyError: item column"
    | some v =>
      match colVals cols c t with
      | .error e => .error e
      | .ok vs => .ok (v :: vs)

def statusList (cols : List String) (calculations : List Val)
    (allChildren : List String) (item_col : String) :
    List (List Val) → Except String (List Bool)
  | [] => .ok []
  | r :: t =>
    match calcStatus cols calculations allChildren item_col r with
    | .error e => .error e
    | .ok b =>
      match statusList cols calculations allChildren item_col t with
      | .error e => .error e
      | .ok bs => .ok (b :: bs)

def splitBranch (dfM : DF) (name_graph : Graph) (is_calc_col item_col :
    String) : Except String SortResult :=
  let calcRows := dfM.rows.filter
    (fun r => truthy (getCell dfM.cols r is_calc_col))
  match colVals dfM.cols item_col calcRows with
  | .error e => .error e
  | .ok calculations =>
    let allChildren := (name_graph.map Prod.snd).flatten
    match statusList dfM.cols calculations allChildren item_col dfM.rows with
    | .error e => .error e
    | .ok statuses =>
      let df2 := setCol dfM "calculation_status"
        (statuses.map (fun b => Val.vstr
          (if b then "in_calc_tree" else "independent")))
      let inTreeDf := dropCol
        ⟨df2.cols, df2.rows.filter (fun r =>
          getCell df2.cols r "calculation_status" ==
            some (Val.vstr "in_calc_tree"))⟩ "calculation_status"
      let indepDf := dropCol
        ⟨df2.cols, df2.rows.filter (fun r =>
          getCell df2.cols r "calculation_status" ==
            some (Val.vstr "independent"))⟩ "calculation_status"
      .ok (.pair inTreeDf indepDf)

/-- The `else:` branch: rebuild the frame from `item_name_map` lookups of
the sorted names (keyed by the literal `'name'` column), keeping only names
present in the map.  An empty response list gives an empty frame with no
columns, as `pd.DataFrame([])` does. -/
def reorderBranch (dfM : DF) (sorted_names : List String) :
    Except String SortResult :=
  match buildNameMap dfM with
  | .error e => .error e
  | .ok m =>
    let response := sorted_names.filterMap (fun n => List.lookup n m)
    .ok (.single (if response.isEmpty then ⟨[], []⟩
      else ⟨dfM.cols, response⟩))

/-- Python source of `sort_data_topological` (`calc_helpers.py`).  The
trivial guard returns the frame unchanged; a missing formula column raises
`ValueError`; a missing is-calculation column is created *on the caller's
frame* from `formula.notnull()`; then children are extracted, the graph is
built, pruned, rooted and sorted with `reverse=True`; finally the frame is
either split on the `calculation_status` helper column (added then dropped)
or reordered through the map keyed by the literal `'name'` column. -/
def sort_data_topological (df : DF) (formula_col is_calc_col item_col
    children_col : String) (split : Bool) : Except String SortResult :=
  if df.rows.length ≤ 1 then .ok (.single df)
  else if formula_col ∈ df.cols then
    let dfM := augmentCalcCol df formula_col is_calc_col
    match extract_formula_children dfM formula_col is_calc_col children_col with
    | .error e => .error e
    | .ok dfc =>
      match buildNameGraph dfc item_col children_col with
      | .error e => .error e
      | .ok g₀ =>
        let name_graph := prune_missing_from_graph g₀
        match find_topological_graph_starts name_graph with
        | .error e => .error e
        | .ok roots =>
          match iterative_topological_sort name_graph roots true with
          | .error e => .error e
          | .ok sorted_names =>
            if split then splitBranch dfM name_graph is_calc_col item_col
            else reorderBranch dfM sorted_names
  else
    .error ("ValueError: Formula column " ++ formula_col ++
      " not found in DataFrame")

end Coffee

namespace Coffee

theorem colIdx_none {cols : List String} {c : String} (h : c ∉ cols) :
    colIdx cols c = none := by
  unfold colIdx
  rw [List.findIdx?_eq_none_iff]
  intro x hx
  exact beq_false_of_ne (fun hh => h (hh ▸ hx))

theorem getCell_none {cols : List String} {r : List Val} {c : String}
    (h : c ∉ cols) : getCell cols r c = none := by
  simp [getCell, colIdx_none h]

theorem setCol_cols_new {df : DF} {c : String} {vals : List Val}
    (h : c ∉ df.cols) : (setCol df c vals).cols = df.cols ++ [c] := by
  simp [setCol, colIdx_none h]

theorem setCol_rows_new {df : DF} {c : String} {vals : List Val}
    (h : c ∉ df.cols) :
    (setCol df c vals).rows = (df.rows.zip vals).map (fun rv => rv.1 ++ [rv.2]) := by
  simp [setCol, colIdx_none h]

theorem setCol_rows_length {df : DF} {c : String} {vals : List Val}
    (h : vals.length = df.rows.length) :
    (setCol df c vals).rows.length = df.rows.length := by
  unfold setCol
  cases colIdx df.cols c with
  | none => simp [h]
  | some i => simp [h]

/-- With the hard-coded `'name'` key absent from the frame, the row map of
the non-split path raises `KeyError` on the first row. -/
theorem buildNameMap_error {df : DF} (hname : "name" ∉ df.cols)
    (hrows : df.rows ≠ []) : ∃ e, buildNameMap df = .error e := by
  cases hr : df.rows with
  | nil => exact absurd hr hrows
  | cons r t =>
    refine ⟨"KeyError: name", ?_⟩
    unfold buildNameMap
    rw [hr]
    simp only [List.foldlM, getCell_none hname]
    rfl

/-- C7 counterexample: a one-row frame without the formula column is
returned unchanged by the trivial-size guard (`len(df) <= 1`) instead of
failing with the missing-column error. -/
theorem claim_C7_counterexample :
    sort_data_topological ⟨["name"], [[Val.vstr "A"]]⟩
      "formula" "is_calculation" "name" "children" false =
      .ok (.single ⟨["name"], [[Val.vstr "A"]]⟩) ∧
    "formula" ∉ (["name"] : List String) :=
  ⟨rfl, by decide⟩

/-- C7 (amended): for every input frame with more than one row in which the
designated formula column does not exist, `sort_data_topological` fails
with the missing-column `ValueError` immediately, before any graph or
ordering is computed; frames of at most one row are returned unchanged by
the trivial-size guard instead. -/
theorem claim_C7_amended (df : DF) (formula_col is_calc_col item_col
    children_col : String) (split : Bool)
    (hlen : 1 < df.rows.length) (hf : formula_col ∉ df.cols) :
    sort_data_topological df formula_col is_calc_col item_col children_col
      split =
    .error ("ValueError: Formula column " ++ formula_col ++
      " not found in DataFrame") := by
  unfold sort_data_topological
  rw [if_neg (by omega), if_neg hf]

theorem claim_C7_witness :
    sort_data_topological ⟨["name"], [[Val.vstr "A"], [Val.vstr "B"]]⟩
      "formula" "is_calculation" "name" "children" false =
    .error ("ValueError: Formula column " ++ "formula" ++
      " not found in DataFrame") :=
  claim_C7_amended _ _ _ _ _ _ (by decide) (by decide)

theorem augmentCalcCol_cols (df : DF) (formula_col is_calc_col : String) :
    (augmentCalcCol df formula_col is_calc_col).cols =
      if is_calc_col ∈ df.cols then df.cols else df.cols ++ [is_calc_col] := by
  unfold augmentCalcCol
  by_cases h : is_calc_col ∈ df.cols
  · rw [if_pos h, if_pos h]
  · rw [if_neg h, if_neg h]
    exact setCol_cols_new h

theorem augmentCalcCol_rows_length (df : DF) (formula_col is_calc_col :
    String) :
    (augmentCalcCol df formula_col is_calc_col).rows.length =
      df.rows.length := by
  unfold augmentCalcCol
  by_cases h : is_calc_col ∈ df.cols
  · rw [if_pos h]
  · rw [if_neg h]
    exact setCol_rows_length (by simp)

/-- Inverting a successful nontrivial run of `sort_data_topological`: every
stage succeeded and the result came from the requested branch. -/
theorem sort_ok_inversion {df : DF} {formula_col is_calc_col item_col
    children_col : String} {split : Bool} {r : SortResult}
    (hlen : 1 < df.rows.length)
    (hok : sort_data_topological df formula_col is_calc_col item_col
      children_col split = .ok r) :
    formula_col ∈ df.cols ∧
    ∃ dfc g₀ roots sorted_names,
      extract_formula_children (augmentCalcCol df formula_col is_calc_col)
        formula_col is_calc_col children_col = .ok dfc ∧
      buildNameGraph dfc item_col children_col = .ok g₀ ∧
      find_topological_graph_starts (prune_missing_from_graph g₀) =
        .ok roots ∧
      iterative_topological_sort (prune_missing_from_graph g₀) roots true =
        .ok sorted_names ∧
      (if split then
        splitBranch (augmentCalcCol df formula_col is_calc_col)
          (prune_missing_from_graph g₀) is_calc_col item_col
       else
        reorderBranch (augmentCalcCol df formula_col is_calc_col)
          sorted_names) = .ok r := by
  unfold sort_data_topological at hok
  rw [if_neg (by omega)] at hok
  by_cases hf : formula_col ∈ df.cols
  · rw [if_pos hf] at hok
    dsimp only [] at hok
    refine ⟨hf, ?_⟩
    rcases hx : extract_formula_children (augmentCalcCol df formula_col
        is_calc_col) formula_col is_calc_col children_col with e | dfc
    · rw [hx] at hok; simp at hok
    · rw [hx] at hok
      dsimp only [] at hok
      rcases hg : buildNameGraph dfc item_col children_col with e | g₀
      · rw [hg] at hok; simp at hok
      · rw [hg] at hok
        dsimp only [] at hok
        rcases hs : find_topological_graph_starts
            (prune_missing_from_graph g₀) with e | roots
        · rw [hs] at hok; simp at hok
        · rw [hs] at hok
          dsimp only [] at hok
          rcases ht : iterative_topological_sort
              (prune_missing_from_graph g₀) roots true with e | sorted_names
          · rw [ht] at hok; simp at hok
          · rw [ht] at hok
            dsimp only [] at hok
            exact ⟨dfc, g₀, roots, sorted_names, rfl, hg, hs, ht, hok⟩
  · rw [if_neg hf] at hok
    simp at hok

/-- C10 (confirmed): on the non-split path the returned rows are fetched
from a map keyed by the literal column `'name'` (`buildNameMap`), not by
`item_col`; consequently, with more than one row and `split=false`, a call
can only succeed when the input frame has a `'name'` column, whatever
`item_col` is (the is-calculation column name is assumed distinct from
`'name'` so the flag column the function may create cannot mask the
absence).  The graph itself is keyed by `item_col`, so for
`item_col ≠ 'name'` the reordering is keyed by a different column than the
graph. -/
theorem claim_C10 (df : DF) (formula_col is_calc_col item_col
    children_col : String) (r : SortResult)
    (hlen : 1 < df.rows.length) (hic : is_calc_col ≠ "name")
    (hok : sort_data_topological df formula_col is_calc_col item_col
      children_col false = .ok r) :
    "name" ∈ df.cols := by
  by_contra hname
  obtain ⟨hf, dfc, g₀, roots, sorted_names, _, _, _, _, hbranch⟩ :=
    sort_ok_inversion hlen hok
  rw [if_neg (by simp)] at hbranch
  have hnameM : "name" ∉ (augmentCalcCol df formula_col is_calc_col).cols := by
    rw [augmentCalcCol_cols]
    by_cases h : is_calc_col ∈ df.cols
    · rw [if_pos h]; exact hname
    · rw [if_neg h]
      simp only [List.mem_append, List.mem_singleton]
      rintro (h1 | h1)
      · exact hname h1
      · exact hic h1.symm
  have hrowsM : (augmentCalcCol df formula_col is_calc_col).rows ≠ [] := by
    intro hnil
    have := augmentCalcCol_rows_length df formula_col is_calc_col
    rw [hnil] at this
    simp at this
    omega
  obtain ⟨e, he⟩ := buildNameMap_error hnameM hrowsM
  unfold reorderBranch at hbranch
  rw [he] at hbranch
  simp at hbranch

theorem claim_C10_witness : "name" ∈ (["name", "formula"] : List String) :=
  claim_C10 ⟨["name", "formula"], [[Val.vstr "A", Val.vnull],
      [Val.vstr "B", Val.vstr "[A]"]]⟩ "formula" "is_calculation" "name"
    "children"
    (.single ⟨["name", "formula", "is_calculation"],
      [[Val.vstr "A", Val.vnull, Val.vbool false],
       [Val.vstr "B", Val.vstr "[A]", Val.vbool true]]⟩)
    (by decide) (by decide) rfl

end Coffee

namespace Coffee

theorem takeRun_chars : ∀ l : List Char, ∀ c ∈ (takeRun l).1,
    isNameChar c = true := by
  intro l
  induction l with
  | nil => intro c hc; simp [takeRun] at hc
  | cons x xs ih =>
    intro c hc
    by_cases hx : isNameChar x
    · simp only [takeRun, hx, if_pos] at hc
      rcases List.mem_cons.mp hc with he | hc
      · exact he ▸ hx
      · exact ih c hc
    · simp [takeRun, hx] at hc

theorem takeRun_append : ∀ l : List Char, l = (takeRun l).1 ++ (takeRun l).2 := by
  intro l
  induction l with
  | nil => rfl
  | cons x xs ih =>
    by_cases hx : isNameChar x
    · simp only [takeRun, hx, if_pos, List.cons_append]
      exact congrArg (x :: ·) ih
    · simp [takeRun, hx]

/-- Everything the scanner emits is a nonempty `[A-Z0-9_]` run that occurs
bracketed as a contiguous substring of the input. -/
theorem findAllAuxF_sound : ∀ (fuel : Nat) (l : List Char),
    ∀ n ∈ findAllAuxF fuel l,
      n.data ≠ [] ∧ (∀ c ∈ n.data, isNameChar c = true) ∧
      ('[' :: (n.data ++ [']'])) <:+: l := by
  intro fuel
  induction fuel with
  | zero => intro l n hn; simp [findAllAuxF] at hn
  | succ fuel ih =>
    intro l
    cases l with
    | nil => intro n hn; simp [findAllAuxF] at hn
    | cons c rest =>
      intro n hn
      by_cases hc : c = '['
      · subst hc
        rcases hp : takeRun rest with ⟨run, rest'⟩
        simp only [findAllAuxF, if_pos, hp] at hn
        have hres : rest = run ++ rest' := by
          have h := takeRun_append rest
          rw [hp] at h
          exact h
        cases rest' with
        | nil =>
          obtain ⟨h1, h2, h3⟩ := ih rest n hn
          exact ⟨h1, h2, h3.trans (List.infix_cons (List.infix_refl rest))⟩
        | cons c' rest'' =>
          dsimp only [] at hn
          by_cases hc' : c' = ']'
          · rw [if_pos hc'] at hn
            subst hc'
            by_cases hrun : run.isEmpty
            · rw [if_pos hrun] at hn
              obtain ⟨h1, h2, h3⟩ := ih rest n hn
              exact ⟨h1, h2, h3.trans (List.infix_cons (List.infix_refl rest))⟩
            · rw [if_neg hrun] at hn
              rcases List.mem_cons.mp hn with he | hn
              · subst he
                refine ⟨by simpa using hrun,
                  ?_, ?_⟩
                · intro ch hch
                  refine takeRun_chars rest ch ?_
                  rw [hp]
                  exact hch
                · refine ⟨[], rest'', ?_⟩
                  simp [hres]
              · obtain ⟨h1, h2, h3⟩ := ih rest'' n hn
                refine ⟨h1, h2, ?_⟩
                have hsuf : rest'' <:+: ('[' :: rest) := by
                  refine ⟨'[' :: run ++ [']'], [], ?_⟩
                  simp [hres]
                exact h3.trans hsuf
          · rw [if_neg hc'] at hn
            obtain ⟨h1, h2, h3⟩ := ih rest n hn
            exact ⟨h1, h2, h3.trans (List.infix_cons (List.infix_refl rest))⟩
      · simp only [findAllAuxF, if_neg hc] at hn
        obtain ⟨h1, h2, h3⟩ := ih rest n hn
        exact ⟨h1, h2, h3.trans (List.infix_cons (List.infix_refl rest))⟩

/-- Every extracted name is a nonempty `[A-Z0-9_]` run occurring bracketed
as a contiguous substring of the formula. -/
theorem findAll_sound (s : String) :
    ∀ n ∈ findAll s, n ≠ "" ∧ (∀ c ∈ n.data, isNameChar c = true) ∧
      ('[' :: (n.data ++ [']'])) <:+: s.data := by
  intro n hn
  obtain ⟨h1, h2, h3⟩ := findAllAuxF_sound s.data.length s.data n hn
  refine ⟨?_, h2, h3⟩
  intro he
  rw [he] at h1
  exact h1 rfl

theorem zip_map_self_map {α β γ : Type} (l : List α) (h : α → β)
    (g : α × β → γ) : ((l.zip (l.map h)).map g) = l.map (fun x => g (x, h x)) := by
  induction l with
  | nil => rfl
  | cons x xs ih => simp [ih]

theorem forall₂_map_self {α β : Type} (l : List α) (f : α → β)
    (P : α → β → Prop) (h : ∀ x ∈ l, P x (f x)) :
    List.Forall₂ P l (l.map f) := by
  induction l with
  | nil => exact List.Forall₂.nil
  | cons x xs ih =>
    exact List.Forall₂.cons (h x (by simp)) (ih (fun y hy => h y (by simp [hy])))

/-- C6 counterexample: a row flagged as a calculation whose formula is null
receives the NaN that pandas' `str.findall` produces for a non-string cell
— not a list of matches (and not the empty list). -/
theorem claim_C6_counterexample :
    extract_formula_children ⟨["formula", "is_calculation"],
      [[Val.vnull, Val.vbool true]]⟩ "formula" "is_calculation" "children" =
      .ok ⟨["formula", "is_calculation", "children"],
        [[Val.vnull, Val.vbool true, Val.vnull]]⟩ ∧
    (∀ l : List String, Val.vnull ≠ Val.vlist l) :=
  ⟨rfl, fun _ h => Val.noConfusion h⟩

/-- What `extract_formula_children` does to each row when the flag column
is present and the children column is fresh. -/
theorem extract_spec (df : DF) (formula_col is_calc_col children_col :
    String) (hf : formula_col ∈ df.cols) (hic : is_calc_col ∈ df.cols)
    (hcc : children_col ∉ df.cols) :
    ∃ dfc, extract_formula_children df formula_col is_calc_col children_col =
        .ok dfc ∧
      dfc.cols = df.cols ++ [children_col] ∧
      List.Forall₂ (fun r r' => ∃ cv, r' = r ++ [cv] ∧
        (truthy (getCell df.cols r is_calc_col) = false →
          cv = Val.vlist []) ∧
        (∀ s, truthy (getCell df.cols r is_calc_col) = true →
          getCell df.cols r formula_col = some (Val.vstr s) →
          cv = Val.vlist (findAll s)) ∧
        (truthy (getCell df.cols r is_calc_col) = true →
          (∀ s, getCell df.cols r formula_col ≠ some (Val.vstr s)) →
          cv = Val.vnull)) df.rows dfc.rows := by
  unfold extract_formula_children
  rw [if_pos hf, if_pos hic]
  refine ⟨_, rfl, setCol_cols_new hcc, ?_⟩
  rw [setCol_rows_new hcc]
  rw [zip_map_self_map]
  rw [zip_map_self_map]
  refine forall₂_map_self _ _ _ ?_
  intro r _
  by_cases hflag : truthy (getCell df.cols r is_calc_col)
  · rw [if_pos hflag]
    rcases hcell : getCell df.cols r formula_col with _ | v
    · refine ⟨Val.vnull, rfl, fun h => absurd hflag (by simp [h]), ?_,
        fun _ _ => rfl⟩
      intro s _ hs
      exact Option.noConfusion hs
    · cases v with
      | vstr s =>
        refine ⟨Val.vlist (findAll s), rfl,
          fun h => absurd hflag (by simp [h]), ?_, ?_⟩
        · intro s' _ hs'
          injection hs' with hs'
          injection hs' with hs'
          rw [hs']
        · intro _ hno
          exact absurd rfl (hno s)
      | vbool b =>
        refine ⟨Val.vnull, rfl, fun h => absurd hflag (by simp [h]), ?_,
          fun _ _ => rfl⟩
        intro s _ hs
        exact Val.noConfusion (Option.some.inj hs)
      | vnull =>
        refine ⟨Val.vnull, rfl, fun h => absurd hflag (by simp [h]), ?_,
          fun _ _ => rfl⟩
        intro s _ hs
        exact Val.noConfusion (Option.some.inj hs)
      | vlist xs =>
        refine ⟨Val.vnull, rfl, fun h => absurd hflag (by simp [h]), ?_,
          fun _ _ => rfl⟩
        intro s _ hs
        exact Val.noConfusion (Option.some.inj hs)
  · rw [if_neg hflag]
    exact ⟨Val.vlist [], rfl, fun _ => rfl,
      fun s hs _ => absurd hs (by simpa using hflag),
      fun hs _ => absurd hs (by simpa using hflag)⟩

/-- C6 (corrected/amended): with the flag column present and a fresh
children column name, `extract_formula_children` appends one children cell
per row: rows not flagged as calculations receive the empty list (never
null/absent); rows flagged as calculations with a *string* formula receive
the list of all bracketed `[A-Z0-9_]+` matches of that formula, in
left-to-right order with duplicates preserved (`findAll`, whose output is
sound for the pattern by `findAll_sound`); rows flagged as calculations
whose formula cell is null (or otherwise not a string) receive the NaN of
pandas' `str.findall`, not a list. -/
theorem claim_C6_amended (df : DF) (formula_col is_calc_col children_col :
    String) (hf : formula_col ∈ df.cols) (hic : is_calc_col ∈ df.cols)
    (hcc : children_col ∉ df.cols) :
    ∃ dfc, extract_formula_children df formula_col is_calc_col children_col =
        .ok dfc ∧
      dfc.cols = df.cols ++ [children_col] ∧
      List.Forall₂ (fun r r' => ∃ cv, r' = r ++ [cv] ∧
        (truthy (getCell df.cols r is_calc_col) = false →
          cv = Val.vlist []) ∧
        (∀ s, truthy (getCell df.cols r is_calc_col) = true →
          getCell df.cols r formula_col = some (Val.vstr s) →
          cv = Val.vlist (findAll s)) ∧
        (truthy (getCell df.cols r is_calc_col) = true →
          (∀ s, getCell df.cols r formula_col ≠ some (Val.vstr s)) →
          cv = Val.vnull)) df.rows dfc.rows :=
  extract_spec df formula_col is_calc_col children_col hf hic hcc

theorem unwind_mem {g : Graph} {v : String} :
    ∀ {stack order st₁ or₁ : List String},
    unwind g v stack order = .ok (st₁, or₁) →
    ∀ x, (x ∈ st₁ ∨ x ∈ or₁) ↔ (x ∈ stack ∨ x ∈ order) := by
  intro stack
  induction stack with
  | nil =>
    intro order st₁ or₁ h x
    simp only [unwind] at h
    injection h with h
    injection h with h1 h2
    subst h1
    subst h2
    simp
  | cons s rest ih =>
    intro order st₁ or₁ h x
    simp only [unwind] at h
    rcases hc : childrenOf g s with _ | cs
    · rw [hc] at h; simp at h
    · rw [hc] at h
      dsimp only [] at h
      by_cases hv : v ∈ cs
      · rw [if_pos hv] at h
        injection h with h
        injection h with h1 h2
        subst h1
        subst h2
        simp
      · rw [if_neg hv] at h
        rw [ih h x]
        simp only [List.mem_cons]
        tauto

theorem sortLoop_mem {g : Graph} :
    ∀ (fuel : Nat) (seen q stack order st or : List String),
    sortLoop g fuel seen q stack order = .ok (st, or) →
    (∀ x, (x ∈ stack ∨ x ∈ order) → (x ∈ st ∨ x ∈ or)) ∧
    (∀ x ∈ q, x ∈ seen ∨ x ∈ st ∨ x ∈ or) := by
  intro fuel
  induction fuel with
  | zero => intro seen q stack order st or h; simp [sortLoop] at h
  | succ fuel ih =>
    intro seen q stack order st or h
    match q with
    | [] =>
      simp only [sortLoop] at h
      injection h with h
      injection h with h1 h2
      subst h1
      subst h2
      exact ⟨fun x hx => hx, fun x hx => by simp at hx⟩
    | v :: q' =>
      by_cases hv : v ∈ seen
      · rw [show sortLoop g (fuel + 1) seen (v :: q') stack order =
            sortLoop g fuel seen q' stack order by simp [sortLoop, hv]] at h
        obtain ⟨h1, h2⟩ := ih seen q' stack order st or h
        refine ⟨h1, ?_⟩
        intro x hx
        rcases List.mem_cons.mp hx with he | hx
        · exact Or.inl (he ▸ hv)
        · exact h2 x hx
      · simp only [sortLoop, if_neg hv] at h
        rcases hc : childrenOf g v with _ | cs
        · rw [hc] at h; simp at h
        · rw [hc] at h
          dsimp only [] at h
          rcases hu : unwind g v stack order with e | p
          · rw [hu] at h; simp at h
          · rw [hu] at h
            obtain ⟨st₁, or₁⟩ := p
            dsimp only [] at h
            obtain ⟨h1, h2⟩ := ih (v :: seen) (cs.reverse ++ q')
              (v :: st₁) or₁ st or h
            have hpersist : ∀ x, (x ∈ stack ∨ x ∈ order) → (x ∈ st ∨ x ∈ or) := by
              intro x hx
              exact h1 x (by
                rcases (unwind_mem hu x).mpr hx with h3 | h3
                · exact Or.inl (by simp [h3])
                · exact Or.inr h3)
            refine ⟨hpersist, ?_⟩
            intro x hx
            rcases List.mem_cons.mp hx with he | hx
            · subst he
              exact Or.inr (h1 x (Or.inl (by simp)))
            · rcases h2 x (List.mem_append.mpr (Or.inr hx)) with h3 | h3
              · rcases List.mem_cons.mp h3 with he | h3
                · exact Or.inr (h1 x (Or.inl (by simp [he])))
                · exact Or.inl h3
              · exact Or.inr h3

theorem sortLoop_keys {g : Graph} (hp : IsPruned g) :
    ∀ (fuel : Nat) (seen q stack order st or : List String),
    sortLoop g fuel seen q stack order = .ok (st, or) →
    (∀ x ∈ q, x ∈ graphKeys g) → (∀ x ∈ stack, x ∈ graphKeys g) →
    (∀ x ∈ order, x ∈ graphKeys g) →
    ∀ x, (x ∈ st ∨ x ∈ or) → x ∈ graphKeys g := by
  intro fuel
  induction fuel with
  | zero => intro seen q stack order st or h; simp [sortLoop] at h
  | succ fuel ih =>
    intro seen q stack order st or h hq hstack horder
    match q with
    | [] =>
      simp only [sortLoop] at h
      injection h with h
      injection h with h1 h2
      subst h1
      subst h2
      intro x hx
      rcases hx with hx | hx
      · exact hstack x hx
      · exact horder x hx
    | v :: q' =>
      by_cases hv : v ∈ seen
      · rw [show sortLoop g (fuel + 1) seen (v :: q') stack order =
            sortLoop g fuel seen q' stack order by simp [sortLoop, hv]] at h
        exact ih seen q' stack order st or h
          (fun x hx => hq x (by simp [hx])) hstack horder
      · simp only [sortLoop, if_neg hv] at h
        rcases hc : childrenOf g v with _ | cs
        · rw [hc] at h; simp at h
        · rw [hc] at h
          dsimp only [] at h
          rcases hu : unwind g v stack order with e | p
          · rw [hu] at h; simp at h
          · rw [hu] at h
            obtain ⟨st₁, or₁⟩ := p
            dsimp only [] at h
            refine ih (v :: seen) (cs.reverse ++ q') (v :: st₁) or₁ st or h
              ?_ ?_ ?_
            · intro x hx
              rcases List.mem_append.mp hx with h3 | h3
              · exact pruned_children hp hc x (List.mem_reverse.mp h3)
              · exact hq x (by simp [h3])
            · intro x hx
              rcases List.mem_cons.mp hx with he | h3
              · exact he ▸ hq v (by simp)
              · rcases (unwind_mem hu x).mp (Or.inl h3) with h4 | h4
                · exact hstack x h4
                · exact horder x h4
            · intro x hx
              rcases (unwind_mem hu x).mp (Or.inr hx) with h4 | h4
              · exact hstack x h4
              · exact horder x h4

/-- Facts about a successful sort that hold with no acyclicity assumption:
the result consists of graph keys, and contains every start node. -/
theorem itsort_result_facts {g : Graph} (hp : IsPruned g)
    {starts res : List String} {rev : Bool}
    (hs : ∀ x ∈ starts, x ∈ graphKeys g)
    (h : iterative_topological_sort g starts rev = .ok res) :
    (∀ x ∈ res, x ∈ graphKeys g) ∧ (∀ x ∈ starts, x ∈ res) := by
  unfold iterative_topological_sort at h
  rcases hl : sortLoop g (sortFuel g starts) [] starts.reverse [] [] with e | p
  · rw [hl] at h; simp at h
  · rw [hl] at h
    obtain ⟨st, or⟩ := p
    dsimp only [] at h
    injection h with h
    have hmemres : ∀ x, x ∈ res ↔ (x ∈ st ∨ x ∈ or) := by
      intro x
      rw [← h]
      cases rev <;> simp [List.mem_append, List.mem_reverse] <;> tauto
    obtain ⟨_, hcover⟩ := sortLoop_mem (sortFuel g starts) [] starts.reverse
      [] [] st or hl
    have hkeys := sortLoop_keys hp (sortFuel g starts) [] starts.reverse
      [] [] st or hl (fun x hx => hs x (List.mem_reverse.mp hx))
      (fun x hx => by simp at hx) (fun x hx => by simp at hx)
    constructor
    · intro x hx
      exact hkeys x ((hmemres x).mp hx)
    · intro x hx
      rcases hcover x (List.mem_reverse.mpr hx) with h1 | h1
      · simp at h1
      · exact (hmemres x).mpr h1

end Coffee

namespace Coffee

theorem dictInsertP_keys {β : Type} (m : List (String × β)) (k : String)
    (v : β) : ∀ x, x ∈ (dictInsertP m k v).map Prod.fst ↔
      (x ∈ m.map Prod.fst ∨ x = k) := by
  intro x
  unfold dictInsertP
  by_cases h : k ∈ m.map Prod.fst
  · rw [if_pos h]
    rw [List.map_map]
    constructor
    · intro hx
      obtain ⟨kv, hkv, hx⟩ := List.mem_map.mp hx
      simp only [Function.comp] at hx
      by_cases hk : kv.1 = k
      · rw [if_pos hk] at hx
        exact Or.inr hx.symm
      · rw [if_neg hk] at hx
        exact Or.inl (List.mem_map.mpr ⟨kv, hkv, hx⟩)
    · intro hx
      rcases hx with hx | hx
      · obtain ⟨kv, hkv, hx⟩ := List.mem_map.mp hx
        refine List.mem_map.mpr ⟨kv, hkv, ?_⟩
        simp only [Function.comp]
        by_cases hk : kv.1 = k
        · rw [if_pos hk]; rw [← hk]; exact hx
        · rw [if_neg hk]; exact hx
      · subst hx
        obtain ⟨kv, hkv, hx⟩ := List.mem_map.mp h
        refine List.mem_map.mpr ⟨kv, hkv, ?_⟩
        simp only [Function.comp]
        rw [if_pos hx]
  · rw [if_neg h]
    simp

theorem dictInsertP_fresh {β : Type} {m : List (String × β)} {k : String}
    {v : β} (h : k ∉ m.map Prod.fst) : dictInsertP m k v = m ++ [(k, v)] := by
  unfold dictInsertP
  rw [if_neg h]

theorem buildDictGo_cells {β : Type}
    {f : List Val → Except String (String × β)} :
    ∀ {rows : List (List Val)} {acc m : List (String × β)},
    buildDictGo f acc rows = .ok m → ∀ r ∈ rows, ∃ kv, f r = .ok kv := by
  intro rows
  induction rows with
  | nil => intro acc m _ r hr; simp at hr
  | cons r₀ t ih =>
    intro acc m h r hr
    simp only [buildDictGo] at h
    rcases hf : f r₀ with e | kv
    · rw [hf] at h; simp at h
    · rw [hf] at h
      dsimp only [] at h
      rcases List.mem_cons.mp hr with he | hr
      · exact ⟨kv, he ▸ hf⟩
      · exact ih h r hr

theorem buildDictGo_keys {β : Type}
    {f : List Val → Except String (String × β)} :
    ∀ {rows : List (List Val)} {acc m : List (String × β)},
    buildDictGo f acc rows = .ok m →
    ∀ k, k ∈ m.map Prod.fst ↔
      (k ∈ acc.map Prod.fst ∨ ∃ r ∈ rows, ∃ kv, f r = .ok kv ∧ kv.1 = k) := by
  intro rows
  induction rows with
  | nil =>
    intro acc m h k
    simp only [buildDictGo] at h
    injection h with h
    subst h
    simp
  | cons r₀ t ih =>
    intro acc m h k
    simp only [buildDictGo] at h
    rcases hf : f r₀ with e | kv
    · rw [hf] at h; simp at h
    · rw [hf] at h
      dsimp only [] at h
      rw [ih h k]
      rw [dictInsertP_keys]
      constructor
      · rintro (⟨h1 | h1⟩ | h1)
        · exact Or.inl h1
        · exact Or.inr ⟨r₀, by simp, kv, hf, h1.symm⟩
        · obtain ⟨r, hr, kv', hkv', hk⟩ := h1
          exact Or.inr ⟨r, by simp [hr], kv', hkv', hk⟩
      · rintro (h1 | ⟨r, hr, kv', hkv', hk⟩)
        · exact Or.inl (Or.inl h1)
        · rcases List.mem_cons.mp hr with he | hr
          · subst he
            rw [hf] at hkv'
            injection hkv' with hkv'
            exact Or.inl (Or.inr (by rw [← hk, hkv']))
          · exact Or.inr ⟨r, hr, kv', hkv', hk⟩

theorem buildDictGo_eq_map {β : Type}
    {f : List Val → Except String (String × β)}
    (keyF : List Val → String) (valF : List Val → β)
    (hkv : ∀ r, ∀ kv, f r = .ok kv → kv = (keyF r, valF r)) :
    ∀ {rows : List (List Val)} {acc m : List (String × β)},
    buildDictGo f acc rows = .ok m →
    (rows.map keyF).Nodup →
    (∀ r ∈ rows, keyF r ∉ acc.map Prod.fst) →
    m = acc ++ rows.map (fun r => (keyF r, valF r)) := by
  intro rows
  induction rows with
  | nil =>
    intro acc m h _ _
    simp only [buildDictGo] at h
    injection h with h
    subst h
    simp
  | cons r₀ t ih =>
    intro acc m h hnd hfresh
    simp only [buildDictGo] at h
    rcases hf : f r₀ with e | kv
    · rw [hf] at h; simp at h
    · rw [hf] at h
      dsimp only [] at h
      have hkv₀ := hkv r₀ kv hf
      subst hkv₀
      rw [dictInsertP_fresh (hfresh r₀ (by simp))] at h
      have hres := ih h (by simpa using hnd.of_cons) ?_
      · rw [hres]
        simp
      · intro r hr
        simp only [List.map_append, List.mem_append]
        rintro (h1 | h1)
        · exact hfresh r (by simp [hr]) h1
        · simp only [List.map_cons, List.map_nil, List.mem_singleton] at h1
          have := (List.nodup_cons.mp hnd).1
          exact this (by rw [← h1]; exact List.mem_map.mpr ⟨r, hr, rfl⟩)

end Coffee

namespace Coffee

theorem colIdx_append_self {cols : List String} {c : String} (h : c ∉ cols) :
    colIdx (cols ++ [c]) c = some cols.length := by
  unfold colIdx
  rw [List.findIdx?_append]
  have h1 : List.findIdx? (fun c' => c' == c) cols = none := colIdx_none h
  rw [h1]
  simp

theorem colIdx_lt_length {cols : List String} {c : String} {i : Nat}
    (h : colIdx cols c = some i) : i < cols.length := by
  unfold colIdx at h
  exact (List.findIdx?_eq_some_iff_findIdx_eq.mp h).1

theorem getCell_append_new {cols : List String} {r : List Val} {c : String}
    {v : Val} (h : c ∉ cols) (hlen : r.length = cols.length) :
    getCell (cols ++ [c]) (r ++ [v]) c = some v := by
  unfold getCell
  rw [colIdx_append_self h]
  dsimp only []
  rw [List.getElem?_append_right (by omega)]
  simp [hlen]

theorem colIdx_append_other {cols : List String} {c c' : String}
    (hne : c' ≠ c) : colIdx (cols ++ [c]) c' = colIdx cols c' := by
  unfold colIdx
  rw [List.findIdx?_append]
  rcases hx : List.findIdx? (fun x => x == c') cols with _ | i
  · have h1 : List.findIdx? (fun x => x == c') [c] = none := by
      simp [beq_false_of_ne (Ne.symm hne)]
    rw [h1]
    rfl
  · rfl

theorem getCell_append_other {cols : List String} {r : List Val}
    {c c' : String} {v : Val} (hne : c' ≠ c) (hlen : r.length = cols.length) :
    getCell (cols ++ [c]) (r ++ [v]) c' = getCell cols r c' := by
  unfold getCell
  rw [colIdx_append_other hne]
  rcases hx : colIdx cols c' with _ | i
  · rfl
  · have hi : i < cols.length := colIdx_lt_length hx
    dsimp only []
    rw [List.getElem?_append_left (by omega)]

theorem eraseIdx_append_last {α : Type} (l : List α) (x : α) :
    (l ++ [x]).eraseIdx l.length = l := by
  induction l with
  | nil => rfl
  | cons y t ih => simp [List.eraseIdx, ih]

end Coffee

namespace Coffee

theorem claim_C6_witness :
    ∃ dfc, extract_formula_children
        ⟨["name", "formula", "is_calculation"],
          [[Val.vstr "A", Val.vnull, Val.vbool false],
           [Val.vstr "B", Val.vstr "[A]+[A]", Val.vbool true]]⟩
        "formula" "is_calculation" "children" = .ok dfc ∧
      dfc.cols = ["name", "formula", "is_calculation"] ++ ["children"] ∧
      List.Forall₂ (fun r r' => ∃ cv, r' = r ++ [cv] ∧
        (truthy (getCell ["name", "formula", "is_calculation"] r
          "is_calculation") = false → cv = Val.vlist []) ∧
        (∀ s, truthy (getCell ["name", "formula", "is_calculation"] r
          "is_calculation") = true →
          getCell ["name", "formula", "is_calculation"] r "formula" =
            some (Val.vstr s) → cv = Val.vlist (findAll s)) ∧
        (truthy (getCell ["name", "formula", "is_calculation"] r
          "is_calculation") = true →
          (∀ s, getCell ["name", "formula", "is_calculation"] r "formula" ≠
            some (Val.vstr s)) → cv = Val.vnull))
        [[Val.vstr "A", Val.vnull, Val.vbool false],
         [Val.vstr "B", Val.vstr "[A]+[A]", Val.vbool true]] dfc.rows :=
  claim_C6_amended _ "formula" "is_calculation" "children"
    (by decide) (by decide) (by decide)

end Coffee

namespace Coffee

theorem lookup_some_of_mem_keys {β : Type} :
    ∀ {m : List (String × β)} {k : String},
    k ∈ m.map Prod.fst → ∃ b, List.lookup k m = some b := by
  intro m
  induction m with
  | nil => intro k h; simp at h
  | cons kv t ih =>
    intro k h
    obtain ⟨k', v'⟩ := kv
    by_cases hk : k = k'
    · subst hk
      exact ⟨v', by simp [List.lookup]⟩
    · simp only [List.lookup, beq_false_of_ne hk]
      apply ih
      simpa [hk] using h

theorem colIdx_some_mem {cols : List String} {c : String} {i : Nat}
    (h : colIdx cols c = some i) : c ∈ cols := by
  unfold colIdx at h
  obtain ⟨hlt, heq⟩ := List.findIdx?_eq_some_iff_findIdx_eq.mp h
  have hlt2 : List.findIdx (fun c' => c' == c) cols < cols.length := by omega
  have hp := @List.findIdx_getElem _ (fun c' => c' == c) cols hlt2
  have hmem := List.get_mem cols (List.findIdx (fun c' => c' == c) cols) hlt2
  simp only [beq_iff_eq] at hp
  rw [List.get_eq_getElem] at hmem
  rw [hp] at hmem
  exact hmem

theorem getCell_some_mem {cols : List String} {r : List Val} {c : String}
    {v : Val} (h : getCell cols r c = some v) : c ∈ cols := by
  unfold getCell at h
  rcases hx : colIdx cols c with _ | i
  · rw [hx] at h; simp at h
  · exact colIdx_some_mem hx

theorem getCell_some_of_mem {cols : List String} {r : List Val} {c : String}
    (hc : c ∈ cols) (hlen : r.length = cols.length) :
    ∃ v, getCell cols r c = some v := by
  unfold getCell
  rcases hx : colIdx cols c with _ | i
  · exfalso
    unfold colIdx at hx
    rw [List.findIdx?_eq_none_iff] at hx
    have := hx c hc
    simp at this
  · have hi : i < cols.length := colIdx_lt_length hx
    dsimp only []
    refine ⟨r.get ⟨i, by omega⟩, ?_⟩
    rw [List.getElem?_eq_getElem (by omega)]
    rfl

theorem forall₂_mem_right {α β : Type} {P : α → β → Prop} :
    ∀ {l : List α} {l' : List β}, List.Forall₂ P l l' →
      ∀ y ∈ l', ∃ x ∈ l, P x y := by
  intro l l' h
  induction h with
  | nil => intro y hy; simp at hy
  | cons h1 _ ih =>
    intro y hy
    rcases List.mem_cons.mp hy with he | hy
    · exact ⟨_, by simp, he ▸ h1⟩
    · obtain ⟨x, hx, hP⟩ := ih y hy
      exact ⟨x, by simp [hx], hP⟩

theorem forall₂_mem_left {α β : Type} {P : α → β → Prop} :
    ∀ {l : List α} {l' : List β}, List.Forall₂ P l l' →
      ∀ x ∈ l, ∃ y ∈ l', P x y := by
  intro l l' h
  induction h with
  | nil => intro x hx; simp at hx
  | cons h1 _ ih =>
    intro x hx
    rcases List.mem_cons.mp hx with he | hx
    · exact ⟨_, by simp, he ▸ h1⟩
    · obtain ⟨y, hy, hP⟩ := ih x hx
      exact ⟨y, by simp [hy], hP⟩

/-- Inverting one successful step of `buildNameGraph`'s per-row function. -/
theorem graphRow_ok_inv {cols : List String} {r : List Val}
    {item_col children_col : String} {kv : String × List String}
    (h : (match getCell cols r item_col with
      | none => Except.error "KeyError: item column"
      | some nameV =>
        match getCell cols r children_col with
        | some (Val.vlist cs) => Except.ok (pyStr nameV, cs)
        | _ => Except.error "TypeError: children cell is not a list") =
      .ok kv) :
    ∃ v cs, getCell cols r item_col = some v ∧
      getCell cols r children_col = some (Val.vlist cs) ∧
      kv = (pyStr v, cs) := by
  rcases h1 : getCell cols r item_col with _ | v
  · rw [h1] at h; simp at h
  · rw [h1] at h
    dsimp only [] at h
    rcases h2 : getCell cols r children_col with _ | w
    · rw [h2] at h; simp at h
    · rw [h2] at h
      cases w with
      | vstr s => simp at h
      | vbool b => simp at h
      | vnull => simp at h
      | vlist cs =>
        dsimp only [] at h
        injection h with h
        exact ⟨v, cs, rfl, rfl, h.symm⟩

theorem setCol_WF_new {df : DF} {c : String} {vals : List Val}
    (hwf : DF.WF df) (hc : c ∉ df.cols) (hlen : vals.length = df.rows.length) :
    DF.WF (setCol df c vals) := by
  intro r hr
  rw [setCol_cols_new hc]
  rw [setCol_rows_new hc] at hr
  obtain ⟨⟨r₀, v₀⟩, hmem, rfl⟩ := List.mem_map.mp hr
  have hr₀ : r₀ ∈ df.rows := List.of_mem_zip hmem |>.1
  simp [hwf r₀ hr₀]

theorem augmentCalcCol_WF {df : DF} {formula_col is_calc_col : String}
    (hwf : DF.WF df) : DF.WF (augmentCalcCol df formula_col is_calc_col) := by
  unfold augmentCalcCol
  by_cases h : is_calc_col ∈ df.cols
  · rw [if_pos h]; exact hwf
  · rw [if_neg h]
    exact setCol_WF_new hwf h (by simp)

theorem augmentCalcCol_has_calc (df : DF) (formula_col is_calc_col : String) :
    is_calc_col ∈ (augmentCalcCol df formula_col is_calc_col).cols := by
  rw [augmentCalcCol_cols]
  by_cases h : is_calc_col ∈ df.cols
  · rw [if_pos h]; exact h
  · rw [if_neg h]; simp

theorem dropCol_cols_last {cols : List String} {rows : List (List Val)}
    {c : String} (h : c ∉ cols) :
    (dropCol ⟨cols ++ [c], rows⟩ c).cols = cols := by
  unfold dropCol
  rw [show colIdx (⟨cols ++ [c], rows⟩ : DF).cols c = some cols.length from
    colIdx_append_self h]
  exact eraseIdx_append_last cols c

end Coffee

namespace Coffee

def resultCols : SortResult → List (List String)
  | .single d => [d.cols]
  | .pair a b => [a.cols, b.cols]

/-- C9 counterexample: for an input without an is-calculation column, the
function creates that column on the frame before splitting, and both
returned tables carry it: the returned columns are not exactly the input
columns. -/
theorem claim_C9_counterexample :
    sort_data_topological
        ⟨["name", "formula"], [[Val.vstr "A", Val.vnull],
          [Val.vstr "B", Val.vstr "[A]"]]⟩
        "formula" "is_calculation" "name" "children" true =
      .ok (.pair
        ⟨["name", "formula", "is_calculation"],
          [[Val.vstr "A", Val.vnull, Val.vbool false],
           [Val.vstr "B", Val.vstr "[A]", Val.vbool true]]⟩
        ⟨["name", "formula", "is_calculation"], []⟩) ∧
    (["name", "formula", "is_calculation"] : List String) ≠
      ["name", "formula"] :=
  ⟨rfl, by decide⟩

/-- C9 (corrected/amended): for well-formed frames with more than one row,
default item column `'name'`, and fresh helper column names, every table a
successful call returns has exactly the input's columns — except that when
the is-calculation column was absent it is created on the frame and
therefore appears, appended last, in every returned table.  The derived
children column and the `calculation_status` column never appear. -/
theorem claim_C9_amended (df : DF) (formula_col is_calc_col children_col :
    String) (split : Bool) (r : SortResult)
    (hwf : DF.WF df)
    (hlen : 1 < df.rows.length)
    (hstat : "calculation_status" ∉ df.cols)
    (hics : is_calc_col ≠ "calculation_status")
    (hch : children_col ∉ df.cols)
    (hchic : children_col ≠ is_calc_col)
    (hchname : children_col ≠ "name")
    (hok : sort_data_topological df formula_col is_calc_col "name"
      children_col split = .ok r) :
    ∀ cs ∈ resultCols r,
      cs = df.cols ++ (if is_calc_col ∈ df.cols then [] else [is_calc_col]) := by
  obtain ⟨hf, dfc, g₀, roots, sorted_names, hx, hg, hs, ht, hbranch⟩ :=
    sort_ok_inversion hlen hok
  have hcolsM : (augmentCalcCol df formula_col is_calc_col).cols =
      df.cols ++ (if is_calc_col ∈ df.cols then [] else [is_calc_col]) := by
    rw [augmentCalcCol_cols]
    by_cases h : is_calc_col ∈ df.cols
    · rw [if_pos h, if_pos h]; simp
    · rw [if_neg h, if_neg h]
  have hstatM : "calculation_status" ∉
      (augmentCalcCol df formula_col is_calc_col).cols := by
    rw [hcolsM]
    simp only [List.mem_append]
    rintro (h1 | h1)
    · exact hstat h1
    · by_cases h : is_calc_col ∈ df.cols
      · rw [if_pos h] at h1; simp at h1
      · rw [if_neg h] at h1
        simp only [List.mem_singleton] at h1
        exact hics h1.symm
  cases split with
  | true =>
    rw [if_pos rfl] at hbranch
    unfold splitBranch at hbranch
    dsimp only [] at hbranch
    rcases hm1 : colVals (augmentCalcCol df formula_col is_calc_col).cols
        "name" ((augmentCalcCol df formula_col is_calc_col).rows.filter
        (fun r => truthy (getCell (augmentCalcCol df formula_col
          is_calc_col).cols r is_calc_col))) with e | calculations
    · rw [hm1] at hbranch; simp at hbranch
    · rw [hm1] at hbranch
      dsimp only [] at hbranch
      rcases hm2 : statusList (augmentCalcCol df formula_col is_calc_col).cols
          calculations ((prune_missing_from_graph g₀).map Prod.snd).flatten
          "name" (augmentCalcCol df formula_col is_calc_col).rows
          with e | statuses
      · rw [hm2] at hbranch; simp at hbranch
      · rw [hm2] at hbranch
        dsimp only [] at hbranch
        injection hbranch with hbranch
        subst hbranch
        intro cs hcs
        rw [setCol_cols_new hstatM] at hcs
        simp only [resultCols, List.mem_cons, List.mem_singleton] at hcs
        rcases hcs with h1 | h1 | h1
        · rw [h1, dropCol_cols_last hstatM, hcolsM]
        · rw [h1, dropCol_cols_last hstatM, hcolsM]
        · simp at h1
  | false =>
    rw [if_neg (by simp)] at hbranch
    unfold reorderBranch at hbranch
    rcases hmp : buildNameMap (augmentCalcCol df formula_col is_calc_col)
        with e | m
    · rw [hmp] at hbranch; simp at hbranch
    · rw [hmp] at hbranch
      dsimp only [] at hbranch
      -- the sorted names are graph keys, and every graph key is a map key
      obtain ⟨hre, hrne⟩ := find_starts_ok hs
      have hp := prune_pruned g₀
      have hrk : ∀ x ∈ roots, x ∈ graphKeys (prune_missing_from_graph g₀) := by
        intro x hxr
        exact startsOf_subset_keys _ x (hre ▸ hxr)
      obtain ⟨hsortk, hrootsub⟩ := itsort_result_facts hp hrk ht
      have hwfM : DF.WF (augmentCalcCol df formula_col is_calc_col) :=
        augmentCalcCol_WF hwf
      have hfM : formula_col ∈ (augmentCalcCol df formula_col is_calc_col).cols := by
        rw [hcolsM]
        exact List.mem_append.mpr (Or.inl hf)
      have hchM : children_col ∉ (augmentCalcCol df formula_col is_calc_col).cols := by
        rw [hcolsM]
        simp only [List.mem_append]
        rintro (h1 | h1)
        · exact hch h1
        · by_cases h : is_calc_col ∈ df.cols
          · rw [if_pos h] at h1; simp at h1
          · rw [if_neg h] at h1
            simp only [List.mem_singleton] at h1
            exact hchic h1
      obtain ⟨dfc', hx', hcols', hfa⟩ := extract_spec
        (augmentCalcCol df formula_col is_calc_col) formula_col is_calc_col
        children_col hfM (augmentCalcCol_has_calc df formula_col is_calc_col)
        hchM
      rw [hx] at hx'
      injection hx' with hx'
      subst hx'
      -- every sorted name is a key of the row map
      have hmapkey : ∀ k ∈ sorted_names, k ∈ m.map Prod.fst := by
        intro k hk
        have hk₀ : k ∈ graphKeys g₀ := by
          have := hsortk k hk
          rw [prune_keys] at this
          exact this
        unfold buildNameGraph buildDict at hg
        obtain ⟨r', hr', kv, hkv, hkv1⟩ :=
          ((buildDictGo_keys hg k).mp hk₀).elim
            (fun h => absurd h (by simp)) id
        obtain ⟨v, cs0, hvcell, _, hkveq⟩ := graphRow_ok_inv hkv
        obtain ⟨r₀, hr₀, cv, hreq, _⟩ := forall₂_mem_right hfa r' hr'
        have hlenr : r₀.length =
            (augmentCalcCol df formula_col is_calc_col).cols.length :=
          hwfM r₀ hr₀
        have hvcell₀ : getCell (augmentCalcCol df formula_col
            is_calc_col).cols r₀ "name" = some v := by
          rw [hreq, hcols'] at hvcell
          rwa [getCell_append_other (Ne.symm hchname) hlenr] at hvcell
        unfold buildNameMap buildDict at hmp
        rw [buildDictGo_keys hmp k]
        refine Or.inr ⟨r₀, hr₀, (pyStr v, r₀), ?_, ?_⟩
        · rw [hvcell₀]
        · rw [← hkv1, hkveq]
      -- hence the response is nonempty
      cases hsn : sorted_names with
      | nil =>
        exfalso
        cases roots with
        | nil => exact hrne rfl
        | cons r₀ rt =>
          have := hrootsub r₀ (by simp)
          rw [hsn] at this
          simp at this
      | cons k₀ krest =>
        obtain ⟨row₀, hrow₀⟩ := lookup_some_of_mem_keys
          (hmapkey k₀ (by simp [hsn]))
        rw [hsn] at hbranch
        rw [show (k₀ :: krest).filterMap (fun n => List.lookup n m) =
            row₀ :: krest.filterMap (fun n => List.lookup n m) by
          simp [List.filterMap_cons, hrow₀]] at hbranch
        rw [if_neg (by simp)] at hbranch
        injection hbranch with hbranch
        subst hbranch
        intro cs hcs
        simp only [resultCols, List.mem_singleton] at hcs
        rw [hcs, hcolsM]

end Coffee

namespace Coffee

theorem claim_C9_witness :
    (["name", "formula", "is_calculation"] : List String) =
      ["name", "formula"] ++
        (if "is_calculation" ∈ (["name", "formula"] : List String) then []
         else ["is_calculation"]) :=
  claim_C9_amended ⟨["name", "formula"], [[Val.vstr "A", Val.vnull],
      [Val.vstr "B", Val.vstr "[A]"]]⟩ "formula" "is_calculation" "children"
    true
    (.pair
      ⟨["name", "formula", "is_calculation"],
        [[Val.vstr "A", Val.vnull, Val.vbool false],
         [Val.vstr "B", Val.vstr "[A]", Val.vbool true]]⟩
      ⟨["name", "formula", "is_calculation"], []⟩)
    (by unfold DF.WF; decide) (by decide) (by decide) (by decide) (by decide)
    (by decide) (by decide) rfl
    ["name", "formula", "is_calculation"] (by decide)

end Coffee

namespace Coffee

theorem colVals_forall₂ {cols : List String} {c : String} :
    ∀ {rows : List (List Val)} {vs : List Val},
    colVals cols c rows = .ok vs →
      List.Forall₂ (fun r v => getCell cols r c = some v) rows vs := by
  intro rows
  induction rows with
  | nil =>
    intro vs h
    simp only [colVals] at h
    injection h with h
    subst h
    exact List.Forall₂.nil
  | cons r t ih =>
    intro vs h
    simp only [colVals] at h
    rcases hc : getCell cols r c with _ | v
    · rw [hc] at h; simp at h
    · rw [hc] at h
      dsimp only [] at h
      rcases ht : colVals cols c t with e | ws
      · rw [ht] at h; simp at h
      · rw [ht] at h
        dsimp only [] at h
        injection h with h
        subst h
        exact List.Forall₂.cons hc (ih ht)

theorem statusList_forall₂ {cols : List String} {cal : List Val}
    {ch : List String} {item_col : String} :
    ∀ {rows : List (List Val)} {bs : List Bool},
    statusList cols cal ch item_col rows = .ok bs →
      List.Forall₂ (fun r b => calcStatus cols cal ch item_col r = .ok b)
        rows bs := by
  intro rows
  induction rows with
  | nil =>
    intro bs h
    simp only [statusList] at h
    injection h with h
    subst h
    exact List.Forall₂.nil
  | cons r t ih =>
    intro bs h
    simp only [statusList] at h
    rcases hc : calcStatus cols cal ch item_col r with e | b
    · rw [hc] at h; simp at h
    · rw [hc] at h
      dsimp only [] at h
      rcases ht : statusList cols cal ch item_col t with e | cs
      · rw [ht] at h; simp at h
      · rw [ht] at h
        dsimp only [] at h
        injection h with h
        subst h
        exact List.Forall₂.cons hc (ih ht)

theorem forall₂_eq_map {α β : Type} {P : α → β → Prop} {f : α → β} :
    ∀ {l : List α} {ys : List β}, List.Forall₂ P l ys →
      (∀ x ∈ l, ∀ y, P x y → y = f x) → ys = l.map f := by
  intro l ys h
  induction h with
  | nil => intro _; rfl
  | cons h1 h2 ih =>
    intro hu
    rw [List.map_cons]
    rw [hu _ (by simp) _ h1]
    rw [ih (fun x hx y hP => hu x (by simp [hx]) y hP)]

theorem calcStatus_ok_inv {cols : List String} {cal : List Val}
    {ch : List String} {item_col : String} {row : List Val} {st : Bool}
    (h : calcStatus cols cal ch item_col row = .ok st) :
    ∃ v, getCell cols row item_col = some v ∧
      st = (cal.contains v ||
        (match v with
         | Val.vstr s => ch.contains s
         | _ => false)) := by
  unfold calcStatus at h
  rcases hc : getCell cols row item_col with _ | v
  · rw [hc] at h; simp at h
  · rw [hc] at h
    dsimp only [] at h
    injection h with h
    exact ⟨v, rfl, h.symm⟩

theorem itemF_ok_inv {cols : List String} {item_col : String}
    {row : List Val} {v : Val}
    (h : (match getCell cols row item_col with
      | none => Except.error "KeyError: item column"
      | some v => Except.ok v) = .ok v) :
    getCell cols row item_col = some v := by
  rcases hc : getCell cols row item_col with _ | w
  · rw [hc] at h; simp at h
  · rw [hc] at h
    dsimp only [] at h
    injection h with h
    rw [h]

theorem augmentCalcCol_present {df : DF} {formula_col is_calc_col : String}
    (h : is_calc_col ∈ df.cols) :
    augmentCalcCol df formula_col is_calc_col = df := by
  unfold augmentCalcCol
  rw [if_pos h]

end Coffee

namespace Coffee

theorem dropCol_last {cols : List String} {rows : List (List Val)}
    {c : String} (h : c ∉ cols) :
    dropCol ⟨cols ++ [c], rows⟩ c =
      ⟨cols, rows.map (fun r => r.eraseIdx cols.length)⟩ := by
  unfold dropCol
  dsimp only []
  rw [colIdx_append_self h]
  dsimp only []
  rw [eraseIdx_append_last cols c]

/-- Rows of the split branch's filter-then-drop on the freshly appended
status column, as a plain filter of the input rows. -/
theorem split_filter_drop (df : DF) (c : String) (hwf : DF.WF df)
    (hc : c ∉ df.cols) (f : List Val → Val) (want : Val) :
    (dropCol ⟨(setCol df c (df.rows.map f)).cols,
      (setCol df c (df.rows.map f)).rows.filter (fun r =>
        getCell (setCol df c (df.rows.map f)).cols r c == some want)⟩ c).rows
      = df.rows.filter (fun row => f row == want) := by
  rw [setCol_cols_new hc, setCol_rows_new hc, zip_map_self_map,
    dropCol_last hc]
  dsimp only []
  rw [List.filter_map, List.map_map]
  have h1 : df.rows.filter ((fun r => getCell (df.cols ++ [c]) r c ==
        some want) ∘ (fun row => row ++ [f row])) =
      df.rows.filter (fun row => f row == want) := by
    refine List.filter_congr ?_
    intro row hrow
    dsimp only [Function.comp]
    rw [getCell_append_new hc (hwf row hrow)]
    cases hd : f row == want
    · simp only [beq_eq_false_iff_ne, ne_eq] at hd
      simp [hd]
    · simp only [beq_iff_eq] at hd
      simp [hd]
  rw [h1]
  have h2 : ∀ row ∈ df.rows.filter (fun row => f row == want),
      ((fun r => r.eraseIdx df.cols.length) ∘
        (fun row => row ++ [f row])) row = row := by
    intro row hrow
    dsimp only [Function.comp]
    rw [← hwf row (List.mem_filter.mp hrow).1]
    exact eraseIdx_append_last row (f row)
  rw [List.map_congr_left h2]
  simp

/-- Closed form of the name graph built from the extracted frame: one entry
per input row, keyed by `str(row[item_col])`, whose value is the bracketed
matches of the row's string formula when the row is flagged and the empty
list otherwise. -/
theorem nameGraph_eq {df : DF} {formula_col is_calc_col item_col
    children_col : String} {dfc : DF} {g₀ : Graph}
    (hwf : DF.WF df) (hf : formula_col ∈ df.cols) (his : is_calc_col ∈ df.cols)
    (hch : children_col ∉ df.cols) (hil : item_col ∈ df.cols)
    (huniq : (df.rows.map (fun row =>
      pyStr ((getCell df.cols row item_col).getD Val.vnull))).Nodup)
    (hx : extract_formula_children df formula_col is_calc_col children_col =
      .ok dfc)
    (hg : buildNameGraph dfc item_col children_col = .ok g₀) :
    g₀ = df.rows.map (fun row =>
      (pyStr ((getCell df.cols row item_col).getD Val.vnull),
       match getCell df.cols row formula_col,
           truthy (getCell df.cols row is_calc_col) with
       | some (Val.vstr fs), true => findAll fs
       | _, _ => [])) := by
  obtain ⟨dfc', hx', hcols, hfa⟩ :=
    extract_spec df formula_col is_calc_col children_col hf his hch
  rw [hx] at hx'
  injection hx' with hx'
  subst hx'
  have hic : item_col ≠ children_col := fun he => hch (he ▸ hil)
  -- the appended cell is a function of the row
  have hcv : ∀ row ∈ df.rows, ∀ r',
      (∃ cv, r' = row ++ [cv] ∧
        (truthy (getCell df.cols row is_calc_col) = false →
          cv = Val.vlist []) ∧
        (∀ s, truthy (getCell df.cols row is_calc_col) = true →
          getCell df.cols row formula_col = some (Val.vstr s) →
          cv = Val.vlist (findAll s)) ∧
        (truthy (getCell df.cols row is_calc_col) = true →
          (∀ s, getCell df.cols row formula_col ≠ some (Val.vstr s)) →
          cv = Val.vnull)) →
      r' = row ++ [if truthy (getCell df.cols row is_calc_col) then
        (match getCell df.cols row formula_col with
         | some (Val.vstr fs) => Val.vlist (findAll fs)
         | _ => Val.vnull)
        else Val.vlist []] := by
    intro row _ r' ⟨cv, hr', h1, h2, h3⟩
    subst hr'
    by_cases hfl : truthy (getCell df.cols row is_calc_col) = true
    · rw [if_pos hfl]
      rcases hcell : getCell df.cols row formula_col with _ | v
      · have hno : ∀ s, getCell df.cols row formula_col ≠
            some (Val.vstr s) := by
          intro s hs
          rw [hcell] at hs
          exact Option.noConfusion hs
        rw [h3 hfl hno]
      · cases v with
        | vstr fs => rw [h2 fs hfl hcell]
        | vbool b =>
          have hno : ∀ s, getCell df.cols row formula_col ≠
              some (Val.vstr s) := by
            intro s hs
            rw [hcell] at hs
            exact Val.noConfusion (Option.some.inj hs)
          rw [h3 hfl hno]
        | vnull =>
          have hno : ∀ s, getCell df.cols row formula_col ≠
              some (Val.vstr s) := by
            intro s hs
            rw [hcell] at hs
            exact Val.noConfusion (Option.some.inj hs)
          rw [h3 hfl hno]
        | vlist xs =>
          have hno : ∀ s, getCell df.cols row formula_col ≠
              some (Val.vstr s) := by
            intro s hs
            rw [hcell] at hs
            exact Val.noConfusion (Option.some.inj hs)
          rw [h3 hfl hno]
    · rw [if_neg hfl]
      rw [h1 (Bool.eq_false_iff.mpr hfl)]
  have hdfc : dfc.rows = df.rows.map (fun row =>
      row ++ [if truthy (getCell df.cols row is_calc_col) then
        (match getCell df.cols row formula_col with
         | some (Val.vstr fs) => Val.vlist (findAll fs)
         | _ => Val.vnull)
        else Val.vlist []]) := forall₂_eq_map hfa hcv
  unfold buildNameGraph buildDict at hg
  have hkeys : dfc.rows.map
      (fun r => pyStr ((getCell dfc.cols r item_col).getD Val.vnull)) =
      df.rows.map
      (fun row => pyStr ((getCell df.cols row item_col).getD Val.vnull)) := by
    rw [hdfc, List.map_map]
    refine List.map_congr_left ?_
    intro row hrow
    dsimp only [Function.comp]
    rw [hcols, getCell_append_other hic (hwf row hrow)]
  have hg2 := buildDictGo_eq_map
    (fun r => pyStr ((getCell dfc.cols r item_col).getD Val.vnull))
    (fun r => match getCell dfc.cols r children_col with
      | some (Val.vlist cs) => cs
      | _ => [])
    (fun r kv hkv => by
      obtain ⟨v, cs, hv, hcs, rfl⟩ := graphRow_ok_inv hkv
      dsimp only []
      rw [hv, hcs]
      rfl)
    hg
    (by rw [hkeys]; exact huniq)
    (fun r _ h => by simp at h)
  rw [hg2, hdfc, List.map_map]
  simp only [List.nil_append]
  refine List.map_congr_left ?_
  intro row hrow
  dsimp only [Function.comp]
  rw [hcols, getCell_append_other hic (hwf row hrow),
    getCell_append_new hch (hwf row hrow)]
  by_cases hfl : truthy (getCell df.cols row is_calc_col) = true
  · rw [if_pos hfl, hfl]
    rcases hcell : getCell df.cols row formula_col with _ | v
    · rfl
    · cases v <;> rfl
  · rw [if_neg hfl, Bool.eq_false_iff.mpr hfl]
    rcases hcell : getCell df.cols row formula_col with _ | v
    · rfl
    · cases v <;> rfl

theorem status_beq_true (b : Bool) :
    (Val.vstr (if b then "in_calc_tree" else "independent") ==
      Val.vstr "in_calc_tree") = b := by
  cases b <;> decide

theorem status_beq_false (b : Bool) :
    (Val.vstr (if b then "in_calc_tree" else "independent") ==
      Val.vstr "independent") = !b := by
  cases b <;> decide

/-- C5 counterexample: a one-row table with `split=true` is returned by the
trivial-size guard as a *single* table — there are no two returned
partitions at all. -/
theorem claim_C5_counterexample :
    sort_data_topological ⟨["name", "formula"], [[Val.vstr "A", Val.vnull]]⟩
      "formula" "is_calculation" "name" "children" true =
      .ok (.single ⟨["name", "formula"], [[Val.vstr "A", Val.vnull]]⟩) ∧
    (∀ a b : DF, SortResult.single ⟨["name", "formula"],
      [[Val.vstr "A", Val.vnull]]⟩ ≠ .pair a b) :=
  ⟨rfl, fun _ _ h => SortResult.noConfusion h⟩

/-- C5 (corrected/amended): for a well-formed table with more than one row,
the flag column present with boolean cells, unique string name cells, and
fresh helper columns, a successful `split=true` call returns two tables
that partition the input rows: the first is exactly the sublist of rows
satisfying a predicate P, the second exactly the sublist failing P (so
every input row lands in exactly one table, order preserved within both,
nothing duplicated or dropped), and P holds of a row exactly when it is
flagged as a calculation or its name is extracted from the formula of some
flagged row.  One-row tables never reach the split (counterexample). -/
theorem claim_C5_amended (df : DF) (formula_col is_calc_col item_col
    children_col : String) (r : SortResult)
    (hwf : DF.WF df)
    (hlen : 1 < df.rows.length)
    (his : is_calc_col ∈ df.cols)
    (hstat : "calculation_status" ∉ df.cols)
    (hch : children_col ∉ df.cols)
    (hnames : ∀ row ∈ df.rows, ∃ s,
      getCell df.cols row item_col = some (Val.vstr s))
    (huniq : (df.rows.map (fun row =>
      pyStr ((getCell df.cols row item_col).getD Val.vnull))).Nodup)
    (hbool : ∀ row ∈ df.rows, ∃ bv,
      getCell df.cols row is_calc_col = some (Val.vbool bv))
    (hok : sort_data_topological df formula_col is_calc_col item_col
      children_col true = .ok r) :
    ∃ a b P, r = .pair a b ∧
      a.rows = df.rows.filter P ∧
      b.rows = df.rows.filter (fun row => !(P row)) ∧
      ∀ row ∈ df.rows, (P row = true ↔
        (getCell df.cols row is_calc_col = some (Val.vbool true) ∨
         ∃ row' ∈ df.rows,
           getCell df.cols row' is_calc_col = some (Val.vbool true) ∧
           ∃ s fs, getCell df.cols row item_col = some (Val.vstr s) ∧
             getCell df.cols row' formula_col = some (Val.vstr fs) ∧
             s ∈ findAll fs)) := by
  obtain ⟨hf, dfc, g₀, roots, sorted_names, hx, hg, hs, ht, hbranch⟩ :=
    sort_ok_inversion hlen hok
  rw [augmentCalcCol_present his] at hx hbranch
  rw [if_pos rfl] at hbranch
  unfold splitBranch at hbranch
  dsimp only [] at hbranch
  rcases hm1 : colVals df.cols item_col (df.rows.filter
      (fun row => truthy (getCell df.cols row is_calc_col)))
      with e | calculations
  · rw [hm1] at hbranch; simp at hbranch
  · rw [hm1] at hbranch
    dsimp only [] at hbranch
    rcases hm2 : statusList df.cols calculations
        ((prune_missing_from_graph g₀).map Prod.snd).flatten item_col df.rows
        with e | statuses
    · rw [hm2] at hbranch; simp at hbranch
    · rw [hm2] at hbranch
      dsimp only [] at hbranch
      injection hbranch with hbranch
      subst hbranch
      -- flagged predicate agrees with truthiness under boolean cells
      have hflagiff : ∀ row ∈ df.rows,
          (truthy (getCell df.cols row is_calc_col) = true ↔
            getCell df.cols row is_calc_col = some (Val.vbool true)) := by
        intro row hrow
        obtain ⟨bv, hbv⟩ := hbool row hrow
        rw [hbv]
        cases bv <;> simp [truthy]
      -- characterise the collected calculation item cells
      have hcalc : calculations = (df.rows.filter
          (fun row => truthy (getCell df.cols row is_calc_col))).map
          (fun row => (getCell df.cols row item_col).getD Val.vnull) := by
        refine forall₂_eq_map (colVals_forall₂ hm1) ?_
        intro row _ v hv
        rw [hv]
        rfl
      -- characterise the status column
      have hstatus : statuses = df.rows.map (fun row =>
          (calculations.contains ((getCell df.cols row item_col).getD
            Val.vnull) ||
           (match (getCell df.cols row item_col).getD Val.vnull with
            | Val.vstr s =>
              (((prune_missing_from_graph g₀).map Prod.snd).flatten).contains s
            | _ => false))) := by
        refine forall₂_eq_map (statusList_forall₂ hm2) ?_
        intro row _ st hst
        obtain ⟨v, hv, hsteq⟩ := calcStatus_ok_inv hst
        rw [hsteq, hv]
        rfl
      refine ⟨_, _, fun row =>
        (calculations.contains ((getCell df.cols row item_col).getD
          Val.vnull) ||
         (match (getCell df.cols row item_col).getD Val.vnull with
          | Val.vstr s =>
            (((prune_missing_from_graph g₀).map Prod.snd).flatten).contains s
          | _ => false)), rfl, ?_, ?_, ?_⟩
      · -- rows of the in-tree frame
        rw [hstatus, List.map_map,
          split_filter_drop df "calculation_status" hwf hstat]
        refine List.filter_congr ?_
        intro row hrow
        dsimp only [Function.comp]
        rw [status_beq_true]
      · -- rows of the independent frame
        rw [hstatus, List.map_map,
          split_filter_drop df "calculation_status" hwf hstat]
        refine List.filter_congr ?_
        intro row hrow
        dsimp only [Function.comp]
        rw [status_beq_false]
      · -- membership rule
        intro row hrow
        obtain ⟨sName, hsName⟩ := hnames row hrow
        have hil : item_col ∈ df.cols := getCell_some_mem hsName
        have hgeq := nameGraph_eq hwf hf his hch hil huniq hx hg
        dsimp only []
        rw [hsName]
        simp only [Option.getD_some]
        rw [Bool.or_eq_true]
        have hA : calculations.contains (Val.vstr sName) = true ↔
            getCell df.cols row is_calc_col = some (Val.vbool true) := by
          refine List.elem_iff.trans ?_
          rw [hcalc]
          constructor
          · intro hmem
            obtain ⟨row', hrow', heq⟩ := List.mem_map.mp hmem
            have hrow'2 := List.mem_filter.mp hrow'
            have hkey : (fun rw₀ => pyStr ((getCell df.cols rw₀
                item_col).getD Val.vnull)) row' =
                (fun rw₀ => pyStr ((getCell df.cols rw₀
                  item_col).getD Val.vnull)) row := by
              dsimp only []
              rw [heq, hsName]
              rfl
            have hre : row' = row :=
              List.inj_on_of_nodup_map huniq hrow'2.1 hrow hkey
            subst hre
            exact (hflagiff row' hrow'2.1).mp hrow'2.2
          · intro hflag
            refine List.mem_map.mpr ⟨row, List.mem_filter.mpr
              ⟨hrow, (hflagiff row hrow).mpr hflag⟩, ?_⟩
            rw [hsName]
            rfl
        have hkeymem : sName ∈ graphKeys g₀ := by
          rw [hgeq]
          unfold graphKeys
          rw [List.map_map]
          refine List.mem_map.mpr ⟨row, hrow, ?_⟩
          dsimp only [Function.comp]
          rw [hsName]
          rfl
        have hflat : ∀ s : String,
            s ∈ ((prune_missing_from_graph g₀).map Prod.snd).flatten ↔
              ∃ kv ∈ g₀, s ∈ kv.2 ∧ s ∈ graphKeys g₀ := by
          intro s
          unfold prune_missing_from_graph
          rw [List.map_map, List.mem_flatten]
          constructor
          · rintro ⟨c, hc, hsc⟩
            obtain ⟨kv, hkv, rfl⟩ := List.mem_map.mp hc
            dsimp only [Function.comp] at hsc
            have h2 := List.mem_filter.mp hsc
            exact ⟨kv, hkv, h2.1, by simpa using h2.2⟩
          · rintro ⟨kv, hkv, hs1, hs2⟩
            refine ⟨kv.2.filter (fun v => v ∈ graphKeys g₀),
              List.mem_map.mpr ⟨kv, hkv, rfl⟩,
              List.mem_filter.mpr ⟨hs1, by simpa using hs2⟩⟩
        have hB : (((prune_missing_from_graph g₀).map
              Prod.snd).flatten).contains sName = true ↔
            ∃ row' ∈ df.rows,
              getCell df.cols row' is_calc_col = some (Val.vbool true) ∧
              ∃ fs, getCell df.cols row' formula_col = some (Val.vstr fs) ∧
                sName ∈ findAll fs := by
          refine List.elem_iff.trans ((hflat sName).trans ?_)
          constructor
          · rintro ⟨kv, hkv, hmem2, _⟩
            rw [hgeq] at hkv
            obtain ⟨row', hrow', rfl⟩ := List.mem_map.mp hkv
            dsimp only [] at hmem2
            rcases hcell : getCell df.cols row' formula_col with _ | v
            · rw [hcell] at hmem2
              dsimp only [] at hmem2
              exact absurd hmem2 (List.not_mem_nil _)
            · rw [hcell] at hmem2
              cases v with
              | vstr fs =>
                cases hfl : truthy (getCell df.cols row' is_calc_col) with
                | false =>
                  rw [hfl] at hmem2
                  dsimp only [] at hmem2
                  exact absurd hmem2 (List.not_mem_nil _)
                | true =>
                  rw [hfl] at hmem2
                  dsimp only [] at hmem2
                  exact ⟨row', hrow', (hflagiff row' hrow').mp hfl, fs,
                    hcell, hmem2⟩
              | vbool b =>
                dsimp only [] at hmem2
                exact absurd hmem2 (List.not_mem_nil _)
              | vnull =>
                dsimp only [] at hmem2
                exact absurd hmem2 (List.not_mem_nil _)
              | vlist xs =>
                dsimp only [] at hmem2
                exact absurd hmem2 (List.not_mem_nil _)
          · rintro ⟨row', hrow', hflag, fs, hcell, hmemfs⟩
            refine ⟨(pyStr ((getCell df.cols row' item_col).getD Val.vnull),
              match getCell df.cols row' formula_col,
                  truthy (getCell df.cols row' is_calc_col) with
              | some (Val.vstr fs), true => findAll fs
              | _, _ => []), ?_, ?_, hkeymem⟩
            · rw [hgeq]
              exact List.mem_map.mpr ⟨row', hrow', rfl⟩
            · dsimp only []
              rw [hcell, (hflagiff row' hrow').mpr hflag]
              exact hmemfs
        rw [hA, hB]
        constructor
        · rintro (h | ⟨row', hrow', hflag, fs, hcell, hmemfs⟩)
          · exact Or.inl h
          · exact Or.inr ⟨row', hrow', hflag, sName, fs, rfl, hcell, hmemfs⟩
        · rintro (h | ⟨row', hrow', hflag, s, fs, hss, hcell, hmemfs⟩)
          · exact Or.inl h
          · injection hss with hss
            injection hss with hss
            subst hss
            exact Or.inr ⟨row', hrow', hflag, fs, hcell, hmemfs⟩

theorem claim_C5_witness :
    ∃ a b P,
      (SortResult.pair
        ⟨["name", "formula", "is_calculation"],
          [[Val.vstr "A", Val.vnull, Val.vbool false],
           [Val.vstr "B", Val.vstr "[A]", Val.vbool true]]⟩
        ⟨["name", "formula", "is_calculation"], []⟩) = .pair a b ∧
      a.rows = List.filter P
        [[Val.vstr "A", Val.vnull, Val.vbool false],
         [Val.vstr "B", Val.vstr "[A]", Val.vbool true]] ∧
      b.rows = List.filter (fun row => !(P row))
        [[Val.vstr "A", Val.vnull, Val.vbool false],
         [Val.vstr "B", Val.vstr "[A]", Val.vbool true]] ∧
      ∀ row ∈ [[Val.vstr "A", Val.vnull, Val.vbool false],
         [Val.vstr "B", Val.vstr "[A]", Val.vbool true]],
        (P row = true ↔
          (getCell ["name", "formula", "is_calculation"] row
              "is_calculation" = some (Val.vbool true) ∨
           ∃ row' ∈ [[Val.vstr "A", Val.vnull, Val.vbool false],
             [Val.vstr "B", Val.vstr "[A]", Val.vbool true]],
             getCell ["name", "formula", "is_calculation"] row'
               "is_calculation" = some (Val.vbool true) ∧
             ∃ s fs, getCell ["name", "formula", "is_calculation"] row
                 "name" = some (Val.vstr s) ∧
               getCell ["name", "formula", "is_calculation"] row'
                 "formula" = some (Val.vstr fs) ∧
               s ∈ findAll fs)) :=
  claim_C5_amended
    ⟨["name", "formula", "is_calculation"],
      [[Val.vstr "A", Val.vnull, Val.vbool false],
       [Val.vstr "B", Val.vstr "[A]", Val.vbool true]]⟩
    "formula" "is_calculation" "name" "children"
    (.pair
      ⟨["name", "formula", "is_calculation"],
        [[Val.vstr "A", Val.vnull, Val.vbool false],
         [Val.vstr "B", Val.vstr "[A]", Val.vbool true]]⟩
      ⟨["name", "formula", "is_calculation"], []⟩)
    (by unfold DF.WF; decide) (by decide) (by decide) (by decide) (by decide)
    (by
      intro row hrow
      fin_cases hrow
      · exact ⟨"A", rfl⟩
      · exact ⟨"B", rfl⟩)
    (by decide)
    (by
      intro row hrow
      fin_cases hrow
      · exact ⟨false, rfl⟩
      · exact ⟨true, rfl⟩)
    rfl

end Coffee
